import Mathlib

/-!
Verification development for the TCS schema compiler
(tokenizer / parser / verifier / formatter pipeline).

The Rust sources are shallowly embedded below:
* `src/compiler/src/tokenizer.rs`  → `matchAt`, `findFrom`, `tokenizeLoop`, `tokenize_schema`
* `src/tcs-compiler/src/parser.rs` → `parseField`, `parseFields`, `parseDefs`, `parse_schema`
* `src/compiler/src/formatter.rs`  → `format_field`, `format_definition`, `format_schema`
* `src/schema/src/types.rs`        → `Field`, `Definition`, `DefinitionKind`, `Schema`
* `src/tcs-compiler/src/utils.rs`  → `quote`
* `src/tcs-compiler/src/lib.rs`    → `compile`

Text is modelled as `List Char`.  The regex character classes used by the
tokenizer are modelled as follows: the `\d` and `\w` classes (the latter only
enters through the word-boundary assertion `\b`) at ASCII precision, and the
`\s` class with the full Unicode white-space set that the Rust regex crate
uses.  String lengths follow Rust's `str::len`, i.e. they count UTF-8 bytes
(`utf8Len` below); this distinction is observable in column bookkeeping.
Machine-integer parsing (`parse::<i32>`, `parse::<usize>`) is modelled with
explicit range checks at 2^31 / 2^64.
-/

namespace TCS

/-- Schema text, as a sequence of characters. -/
abbrev Str := List Char

/-- The left-brace character, `\x7b`. -/
def lbraceChar : Char := Char.ofNat 123

/-- The right-brace character, `\x7d`. -/
def rbraceChar : Char := Char.ofNat 125

/-- ASCII decimal digit: the model of the regex class `\d`. -/
def isDigitC (c : Char) : Bool := decide ('0' ≤ c) && decide (c ≤ '9')

/-- ASCII letter. -/
def isAlphaC (c : Char) : Bool :=
  (decide ('a' ≤ c) && decide (c ≤ 'z')) || (decide ('A' ≤ c) && decide (c ≤ 'Z'))

/-- Word character (model of the regex class `\w`, used by the boundary `\b`). -/
def isWordC (c : Char) : Bool := isAlphaC c || isDigitC c || decide (c = '_')

/-- The regex class `\s` (Unicode white space, as used by the Rust regex crate). -/
def isSpaceC (c : Char) : Bool :=
  decide (c = ' ') || decide (c = '\t') || decide (c = '\n') ||
  decide (c = Char.ofNat 0x0b) || decide (c = Char.ofNat 0x0c) || decide (c = '\r') ||
  decide (c = Char.ofNat 0x85) || decide (c = Char.ofNat 0xa0) ||
  decide (c = Char.ofNat 0x1680) ||
  (decide (Char.ofNat 0x2000 ≤ c) && decide (c ≤ Char.ofNat 0x200a)) ||
  decide (c = Char.ofNat 0x2028) || decide (c = Char.ofNat 0x2029) ||
  decide (c = Char.ofNat 0x202f) || decide (c = Char.ofNat 0x205f) ||
  decide (c = Char.ofNat 0x3000)

/-- `\b` immediately before a word character: true iff the previous character
(if any) is not a word character. -/
def wordBoundaryAt (prev : Option Char) : Bool :=
  match prev with
  | none => true
  | some p => !isWordC p

/-- Whether the head of `r` (if any) is not a word character; this is the
trailing `\b` test after a digit run. -/
def headNotWord (r : Str) : Bool :=
  match r with
  | [] => true
  | c :: _ => !isWordC c

/-- A token produced by the tokenizer (tokenizer.rs, `struct Token`). -/
structure Token where
  text : Str
  line : Nat
  column : Nat
deriving DecidableEq, Repr

/-- Errors of the pipeline (error.rs, `enum TcsError`; the `Io` and
`CodeGenError` variants are unreachable in the embedded pipeline and omitted). -/
inductive TcsError where
  | parseError (msg : Str) (line : Nat) (column : Nat)
  | verificationError (msg : Str)
deriving DecidableEq, Repr

/-- The characters of `deprecated]`, used by the bracket token forms. -/
def depChars : Str := "deprecated]".toList

/-- Match the three bracket alternatives `\[\d+\]`, `\[\]`, `\[deprecated\]`
of TOKEN_REGEX at a position whose first character `[` has been consumed;
`rest` is the text after the `[`.  Returns the whole matched span (with the
`[` restored) and the remaining text. -/
def matchBracket (rest : Str) : Option (Str × Str) :=
  if !(rest.takeWhile isDigitC).isEmpty then
    if (rest.dropWhile isDigitC).head? = some ']' then
      some ('[' :: (rest.takeWhile isDigitC ++ [']']), (rest.dropWhile isDigitC).tail)
    else none
  else if rest.head? = some ']' then some (['[', ']'], rest.tail)
  else if depChars.isPrefixOf rest then
    some ('[' :: depChars, rest.drop depChars.length)
  else none

/-- One attempt of TOKEN_REGEX at the current position.  `prev` is the
character immediately before the position (`none` at the start of the text);
it enters only through the word-boundary assertions.  The alternatives are
tried in the priority order of the Rust alternation
`(?:-|\b)\d+\b | [=;{}] | \[\d+\] | \[\] | \[deprecated\] |
\b[A-Za-z_][A-Za-z0-9_]*\b | //.* | \s+`; on success the result is the
matched span and the remaining text. -/
def matchAt (prev : Option Char) (cs : Str) : Option (Str × Str) :=
  match cs with
  | [] => none
  | c :: rest =>
    if c = '-' then
      -- the `-` branch of `(?:-|\b)\d+\b`: greedy digits, then `\b`;
      -- backtracking over `\d+` cannot recover a failed trailing `\b`,
      -- because the following character would then be a digit (a word char)
      if !(rest.takeWhile isDigitC).isEmpty && headNotWord (rest.dropWhile isDigitC) then
        some ('-' :: rest.takeWhile isDigitC, rest.dropWhile isDigitC)
      else none
    else if isDigitC c then
      -- the `\b` branch of `(?:-|\b)\d+\b`
      if wordBoundaryAt prev && headNotWord (cs.dropWhile isDigitC) then
        some (cs.takeWhile isDigitC, cs.dropWhile isDigitC)
      else none
    else if c = '=' || c = ';' || c = lbraceChar || c = rbraceChar then
      some ([c], rest)
    else if c = '[' then matchBracket rest
    else if isAlphaC c || c = '_' then
      -- `\b[A-Za-z_][A-Za-z0-9_]*\b`; the trailing `\b` always holds after a
      -- maximal word-character run in the ASCII model
      if wordBoundaryAt prev then
        some (cs.takeWhile isWordC, cs.dropWhile isWordC)
      else none
    else if c = '/' then
      -- `//.*`: `.` matches every character except newline
      if rest.head? = some '/' then
        some (cs.takeWhile (fun x => x ≠ '\n'), cs.dropWhile (fun x => x ≠ '\n'))
      else none
    else if isSpaceC c then
      some (cs.takeWhile isSpaceC, cs.dropWhile isSpaceC)
    else none

/-- `Regex::find_iter` step: the leftmost match at or after the current
position.  Returns `(gap, span, rest)` where `gap` is the skipped text in
front of the match, or `none` when no further match exists. -/
def findFrom : Option Char → Str → Option (Str × Str × Str)
  | prev, [] =>
    match matchAt prev [] with
    | some (sp, r) => some ([], sp, r)
    | none => none
  | prev, c :: rest =>
    match matchAt prev (c :: rest) with
    | some (sp, r) => some ([], sp, r)
    | none =>
      match findFrom (some c) rest with
      | some (g, sp, r) => some (c :: g, sp, r)
      | none => none

/-- Rust `str::len` of a character sequence: the number of UTF-8 bytes. -/
def utf8Len (s : Str) : Nat := (s.map Char.utf8Size).sum

/-- `part.split('\n').last()`: the text after the last newline of `s`
(all of `s` when it has no newline). -/
def lastLinePart (s : Str) : Str := (s.reverse.takeWhile (fun c => c ≠ '\n')).reverse

/-- The line/column bookkeeping of tokenizer.rs: a match containing newlines
advances `line` by the newline count and resets `column` to
`1 + last_line_part.len()`; otherwise `column += part.len()`.  Lengths are
UTF-8 byte counts, exactly as `str::len` computes them. -/
def advancePos (line column : Nat) (part : Str) : Nat × Nat :=
  let n := part.count '\n'
  if 0 < n then (line + n, utf8Len (lastLinePart part) + 1)
  else (line, column + utf8Len part)

/-- utils.rs `quote`: wrap in double quotes, escaping backslash and quote. -/
def quote (s : Str) : Str :=
  '"' :: (s.flatMap (fun c =>
    if c = '\\' then ['\\', '\\'] else if c = '"' then ['\\', '"'] else [c])) ++ ['"']

/-- The text of the tokenizer's error message `Syntax error: {quote s}`. -/
def syntaxErrMsg (s : Str) : Str := "Syntax error: ".toList ++ quote s

/-- The filter of tokenizer.rs that keeps a match out of the token list:
`WHITESPACE_RX.is_match(part) || part.starts_with("//")`. -/
def isWsOrComment (sp : Str) : Bool :=
  (!sp.isEmpty && sp.all isSpaceC) ||
  (match sp with
   | '/' :: '/' :: r => !r.contains '\n'
   | _ => false) ||
  (match sp with
   | '/' :: '/' :: _ => true
   | _ => false)

/-- The last character of `sp` when nonempty, else the current `prev`. -/
def lastOr (sp : Str) (prev : Option Char) : Option Char :=
  match sp.getLast? with
  | some c => some c
  | none => prev

/-- The scanning loop of `tokenize_schema`.  The fuel argument only serves
termination; `tokenize_schema` supplies more fuel than the loop can consume
(each step consumes a nonempty span), so the fuel-exhaustion branch is
unreachable. -/
def tokenizeLoop : Nat → Option Char → Nat → Nat → List Token → Str →
    Except TcsError (List Token)
  | 0, _, line, column, _, _ => .error (.parseError [] line column)
  | fuel + 1, prev, line, column, acc, cs =>
    match findFrom prev cs with
    | none =>
      -- no further match: the trailing `last_end != text.len()` check
      if cs.isEmpty then .ok (acc ++ [⟨[], line, column⟩])
      else .error (.parseError (syntaxErrMsg cs) line column)
    | some (gap, sp, rest) =>
      if gap.isEmpty then
        tokenizeLoop fuel (lastOr sp prev)
          (advancePos line column sp).1 (advancePos line column sp).2
          (if isWsOrComment sp then acc else acc ++ [⟨sp, line, column⟩]) rest
      else .error (.parseError (syntaxErrMsg gap) line column)

/-- tokenizer.rs `tokenize_schema`. -/
def tokenize_schema (text : Str) : Except TcsError (List Token) :=
  tokenizeLoop (text.length + 1) none 1 1 [] text

/-! ## AST (src/schema/src/types.rs) -/

/-- types.rs `DefinitionKind`. -/
inductive DefinitionKind where
  | Enum
  | Struct
  | Message
deriving DecidableEq, Repr

/-- types.rs `Field`.  `field_id` is an `i32`; the parser's range checks are
modelled explicitly, so the value is represented as a mathematical integer. -/
structure Field where
  name : Str
  line : Nat
  column : Nat
  type_ : Option Str
  is_array : Bool
  array_size : Option Nat
  is_deprecated : Bool
  field_id : Int
deriving DecidableEq, Repr

/-- types.rs `Definition`. -/
structure Definition where
  name : Str
  line : Nat
  column : Nat
  kind : DefinitionKind
  fields : List Field
deriving DecidableEq, Repr

/-- types.rs `Schema`. -/
structure Schema where
  package : Option Str
  definitions : List Definition
deriving DecidableEq, Repr

/-! ## Parser (src/tcs-compiler/src/parser.rs)

The Rust parser walks the token slice with a forward-only index; reading
`tokens.get(index)` past the end panics ("Unexpected end of tokens").  The
embedding consumes the token list from the front (one `index += 1` = dropping
one head) and represents the panic explicitly as `PResult.panic`. -/

/-- Result of a parser step: a panic (out-of-bounds token access), a
`TcsError`, or a value. -/
inductive PResult (α : Type) where
  | panic : PResult α
  | err : TcsError → PResult α
  | ok : α → PResult α
deriving DecidableEq, Repr

/-- Test for `^[A-Za-z_][A-Za-z0-9_]*$` (the IDENTIFIER pattern). -/
def isIdentText (s : Str) : Bool :=
  match s with
  | [] => false
  | c :: r => (isAlphaC c || c = '_') && r.all isWordC

/-- Test for `^-?\d+$` (the INTEGER pattern). -/
def isIntegerText (s : Str) : Bool :=
  match s with
  | '-' :: r => !r.isEmpty && r.all isDigitC
  | r => !r.isEmpty && r.all isDigitC

/-- Test for `^\[\]$` (the ARRAY_TOKEN pattern). -/
def isArrayText (s : Str) : Bool := decide (s = ['[', ']'])

/-- The capture of `^\[(\d+)\]$` (FIXED_ARRAY_TOKEN): the digit string when
the text has that shape. -/
def fixedArrayCapture (s : Str) : Option Str :=
  if s.head? = some '[' then
    if !(s.tail.takeWhile isDigitC).isEmpty && decide (s.tail.dropWhile isDigitC = [']']) then
      some (s.tail.takeWhile isDigitC)
    else none
  else none

/-- Test for `^\[deprecated\]$`. -/
def isDeprecatedText (s : Str) : Bool := decide (s = '[' :: depChars)

/-- Test for `^$` (the EOF pattern). -/
def isEOFText (s : Str) : Bool := s.isEmpty

/-- The numeric value of an ASCII digit string (most significant first). -/
def digitsToNat (ds : Str) : Nat := ds.foldl (fun a c => a * 10 + (c.toNat - 48)) 0

/-- `str::parse::<i32>` on a text matching the INTEGER pattern: the value
when it fits in an `i32`, otherwise `none`. -/
def parseI32 (s : Str) : Option Int :=
  match s with
  | '-' :: ds =>
    if !ds.isEmpty && ds.all isDigitC && decide (digitsToNat ds ≤ 2 ^ 31) then
      some (-(digitsToNat ds : Int))
    else none
  | ds =>
    if !ds.isEmpty && ds.all isDigitC && decide (digitsToNat ds < 2 ^ 31) then
      some (digitsToNat ds)
    else none

/-- `str::parse::<usize>` on a digit string: the value when it fits in 64
bits, otherwise `none`. -/
def parseUsize (ds : Str) : Option Nat :=
  if !ds.isEmpty && ds.all isDigitC && decide (digitsToNat ds < 2 ^ 64) then
    some (digitsToNat ds)
  else none

/-- parser.rs `eat`: consume the current token when its text matches.
Reading past the end of the tokens panics, as `current_token` does. -/
def eatT (p : Str → Bool) : List Token → PResult (Bool × List Token)
  | [] => .panic
  | t :: r => if p t.text then .ok (true, r) else .ok (false, t :: r)

/-- The message text `Expected {expected} but found {quote found}`. -/
def expectedMsg (expected found : Str) : Str :=
  "Expected ".toList ++ expected ++ " but found ".toList ++ quote found

/-- parser.rs `expect`: consume the current token or produce the
"Expected … but found …" error at its position. -/
def expectT (p : Str → Bool) (expected : Str) : List Token → PResult (List Token)
  | [] => .panic
  | t :: r =>
    if p t.text then .ok r
    else .err (.parseError (expectedMsg expected t.text) t.line t.column)

/-- parser.rs `unexpected_token`. -/
def unexpectedTokenErr (t : Token) : TcsError :=
  .parseError ("Unexpected token ".toList ++ quote t.text) t.line t.column

/-- The type-and-array step of the field loop (parser.rs lines 109-133):
for non-enum kinds, read the type identifier and an optional `[]` / `[N]`
suffix.  Returns `(type_opt, is_array, array_size)` and the remaining
tokens. -/
def parseFieldTy (kind : DefinitionKind) (toks : List Token) :
    PResult ((Option Str × Bool × Option Nat) × List Token) :=
  if kind ≠ DefinitionKind.Enum then
    match toks with
    | [] => .panic  -- current_token(t_tok)
    | tTok :: _ =>
      match expectT isIdentText "identifier".toList toks with
      | .panic => .panic
      | .err e => .err e
      | .ok toks1 =>
        match toks1 with
        | [] => .panic  -- current_token(next_tok)
        | nextTok :: toks2 =>
          if isArrayText nextTok.text then
            .ok ((some tTok.text, true, none), toks2)
          else
            match fixedArrayCapture nextTok.text with
            | some ds =>
              match parseUsize ds with
              | some n => .ok ((some tTok.text, true, some n), toks2)
              | none =>
                .err (.parseError ("Invalid array size ".toList ++ quote ds)
                  nextTok.line nextTok.column)
            | none => .ok ((some tTok.text, false, none), toks1)
  else .ok ((none, false, none), toks)

/-- The value step of the field loop (parser.rs lines 140-154): an explicit
`= INTEGER` for enum and message fields, the positional id `nfields + 1` for
struct fields. -/
def parseFieldVal (kind : DefinitionKind) (nfields : Nat) (toks : List Token) :
    PResult (Int × List Token) :=
  if kind ≠ DefinitionKind.Struct then
    match expectT (fun s => decide (s = ['='])) "\"=\"".toList toks with
    | .panic => .panic
    | .err e => .err e
    | .ok toks5 =>
      match toks5 with
      | [] => .panic  -- current_token(v_tok)
      | vTok :: _ =>
        match expectT isIntegerText "integer".toList toks5 with
        | .panic => .panic
        | .err e => .err e
        | .ok toks6 =>
          match parseI32 vTok.text with
          | some v => .ok (v, toks6)
          | none =>
            .err (.parseError ("Invalid integer ".toList ++ quote vTok.text)
              vTok.line vTok.column)
  else .ok ((nfields : Int) + 1, toks)

/-- The deprecation step of the field loop (parser.rs lines 156-167):
consume an optional `[deprecated]` marker; on a non-message kind this is the
error "Cannot deprecate this field" at the marker's position. -/
def parseFieldDep (kind : DefinitionKind) (toks : List Token) :
    PResult (Bool × List Token) :=
  match toks with
  | [] => .panic  -- eat calls current_token
  | dTok :: toks8 =>
    if isDeprecatedText dTok.text then
      if kind ≠ DefinitionKind.Message then
        .err (.parseError "Cannot deprecate this field".toList dTok.line dTok.column)
      else .ok (true, toks8)
    else .ok (false, dTok :: toks8)

/-- The body of the field loop of `parse_schema` (parser.rs lines 104-186),
for one field: type and array suffix (non-enum), field name, explicit value
(non-struct) or positional id, optional deprecation marker, semicolon.
`nfields` is the number of fields already collected (`fields.len()`). -/
def parseField (kind : DefinitionKind) (nfields : Nat) (toks : List Token) :
    PResult (Field × List Token) :=
  match parseFieldTy kind toks with
  | .panic => .panic
  | .err e => .err e
  | .ok ((type_opt, is_arr, arr_size), toks3) =>
    match toks3 with
    | [] => .panic  -- current_token(f_tok)
    | fTok :: _ =>
      match expectT isIdentText "identifier".toList toks3 with
      | .panic => .panic
      | .err e => .err e
      | .ok toks4 =>
        match parseFieldVal kind nfields toks4 with
        | .panic => .panic
        | .err e => .err e
        | .ok (value, toks7) =>
          match parseFieldDep kind toks7 with
          | .panic => .panic
          | .err e => .err e
          | .ok (is_depr, toks9) =>
            match expectT (fun s => decide (s = [';'])) "\";\"".toList toks9 with
            | .panic => .panic
            | .err e => .err e
            | .ok toks10 =>
              .ok ({ name := fTok.text, line := fTok.line, column := fTok.column,
                     type_ := type_opt, is_array := is_arr, array_size := arr_size,
                     is_deprecated := is_depr,
                     field_id :=
                       if kind ≠ DefinitionKind.Struct then value
                       else (nfields : Int) + 1 }, toks10)

/-- The field loop of `parse_schema`: collect fields until the closing brace
is consumed.  The fuel only serves termination and is supplied in excess. -/
def parseFields : Nat → DefinitionKind → List Field → List Token →
    PResult (List Field × List Token)
  | 0, _, _, _ => .panic
  | fuel + 1, kind, acc, toks =>
    match eatT (fun s => decide (s = [rbraceChar])) toks with
    | .panic => .panic
    | .err e => .err e
    | .ok (true, rest) => .ok (acc, rest)
    | .ok (false, _) =>
      match parseField kind acc.length toks with
      | .panic => .panic
      | .err e => .err e
      | .ok (f, rest) => parseFields fuel kind (acc ++ [f]) rest

/-- The definition-keyword dispatch of the definition loop (parser.rs lines
86-94): eat `enum`, `struct` or `message`, else the "Unexpected token"
error. -/
def parseDefKind (toks : List Token) : PResult (DefinitionKind × List Token) :=
  match eatT (fun s => decide (s = "enum".toList)) toks with
  | .panic => .panic
  | .err e => .err e
  | .ok (true, r) => .ok (DefinitionKind.Enum, r)
  | .ok (false, _) =>
    match eatT (fun s => decide (s = "struct".toList)) toks with
    | .panic => .panic
    | .err e => .err e
    | .ok (true, r) => .ok (DefinitionKind.Struct, r)
    | .ok (false, _) =>
      match eatT (fun s => decide (s = "message".toList)) toks with
      | .panic => .panic
      | .err e => .err e
      | .ok (true, r) => .ok (DefinitionKind.Message, r)
      | .ok (false, _) =>
        match toks with
        | [] => .panic
        | t :: _ => .err (unexpectedTokenErr t)

/-- The definition loop of `parse_schema` (parser.rs lines 85-196):
`while index < tokens.len() && !eat(EOF)`. -/
def parseDefs : Nat → List Definition → List Token → PResult (List Definition)
  | 0, _, _ => .panic
  | fuel + 1, acc, toks =>
    match toks with
    | [] => .ok acc
    | _ :: _ =>
      match eatT isEOFText toks with
      | .panic => .panic
      | .err e => .err e
      | .ok (true, _) => .ok acc
      | .ok (false, _) =>
        match parseDefKind toks with
        | .panic => .panic
        | .err e => .err e
        | .ok (kind, toks1) =>
          match toks1 with
          | [] => .panic  -- current_token(name_tok)
          | nameTok :: _ =>
            match expectT isIdentText "identifier".toList toks1 with
            | .panic => .panic
            | .err e => .err e
            | .ok toks2 =>
              match expectT (fun s => decide (s = [lbraceChar])) ("\"".toList ++ [lbraceChar] ++ "\"".toList) toks2 with
              | .panic => .panic
              | .err e => .err e
              | .ok toks3 =>
                match parseFields (toks3.length + 1) kind [] toks3 with
                | .panic => .panic
                | .err e => .err e
                | .ok (fields, toks4) =>
                  parseDefs fuel
                    (acc ++ [{ name := nameTok.text, line := nameTok.line,
                               column := nameTok.column, kind := kind, fields := fields }])
                    toks4

/-- The package step of `parse_schema` (parser.rs lines 74-82). -/
def parsePackage (tokens : List Token) : PResult (Option Str × List Token) :=
  match eatT (fun s => decide (s = "package".toList)) tokens with
  | .panic => .panic
  | .err e => .err e
  | .ok (true, toks1) =>
    match toks1 with
    | [] => .err (.parseError "Expected identifier after package".toList 0 0)
    | pkgTok :: _ =>
      match expectT isIdentText "identifier".toList toks1 with
      | .panic => .panic
      | .err e => .err e
      | .ok toks2 =>
        match expectT (fun s => decide (s = [';'])) "\";\"".toList toks2 with
        | .panic => .panic
        | .err e => .err e
        | .ok toks3 => .ok (some pkgTok.text, toks3)
  | .ok (false, _) => .ok (none, tokens)

/-- parser.rs `parse_schema`. -/
def parse_schema (tokens : List Token) : PResult Schema :=
  match parsePackage tokens with
  | .panic => .panic
  | .err e => .err e
  | .ok (pkg, toks4) =>
    match parseDefs (toks4.length + 1) [] toks4 with
    | .panic => .panic
    | .err e => .err e
    | .ok defs => .ok { package := pkg, definitions := defs }

/-! ## Formatter (src/compiler/src/formatter.rs) -/

/-- The ASCII digit character for a value below ten. -/
def digitChar (n : Nat) : Char := Char.ofNat (48 + n)

/-- Decimal digit accumulation for `renderNat`; the fuel argument only serves
termination and is supplied in excess. -/
def natDigitsAux : Nat → Nat → Str → Str
  | 0, _, acc => acc
  | fuel + 1, n, acc =>
    if n < 10 then digitChar n :: acc
    else natDigitsAux fuel (n / 10) (digitChar (n % 10) :: acc)

/-- The decimal rendering of a natural number (`format!` on a `usize`). -/
def renderNat (n : Nat) : Str := natDigitsAux (n + 1) n []

/-- The decimal rendering of an integer (`format!` on an `i32`). -/
def renderInt (i : Int) : Str :=
  if i < 0 then '-' :: renderNat i.natAbs else renderNat i.toNat

/-- formatter.rs `format_typed_field`: `type`, optional `[size]` or `[]`,
a space and the field name; nothing when `type_` is absent. -/
def format_typed_field (f : Field) : Str :=
  match f.type_ with
  | none => []
  | some t =>
    t ++
    (if f.is_array then
      match f.array_size with
      | some n => '[' :: (renderNat n ++ [']'])
      | none => ['[', ']']
     else []) ++
    (' ' :: f.name)

/-- formatter.rs `format_field`: the two-space indent and the per-kind
rendering of one field line. -/
def format_field (kind : DefinitionKind) (f : Field) : Str :=
  "  ".toList ++
  (match kind with
   | DefinitionKind.Enum => f.name ++ " = ".toList ++ renderInt f.field_id ++ ";\n".toList
   | DefinitionKind.Struct => format_typed_field f ++ ";\n".toList
   | DefinitionKind.Message =>
     format_typed_field f ++ " = ".toList ++ renderInt f.field_id ++
     (if f.is_deprecated then " [deprecated]".toList else []) ++ ";\n".toList)

/-- The keyword of a definition kind. -/
def kindKeyword (kind : DefinitionKind) : Str :=
  match kind with
  | DefinitionKind.Enum => "enum".toList
  | DefinitionKind.Struct => "struct".toList
  | DefinitionKind.Message => "message".toList

/-- formatter.rs `format_definition`. -/
def format_definition (d : Definition) : Str :=
  kindKeyword d.kind ++ [' '] ++ d.name ++ [' ', lbraceChar, '\n'] ++
  (d.fields.map (format_field d.kind)).flatten ++ [rbraceChar, '\n']

/-- The definition part of `format_schema`: Rust pushes a separating newline
before every definition except the first (`if i > 0`). -/
def formatDefs : List Definition → Str
  | [] => []
  | d :: ds => format_definition d ++ (ds.map (fun e => '\n' :: format_definition e)).flatten

/-- formatter.rs `format_schema`. -/
def format_schema (s : Schema) : Str :=
  (match s.package with
   | some pkg =>
     "package ".toList ++ pkg ++ ";\n".toList ++
     (if s.definitions.isEmpty then [] else ['\n'])
   | none => []) ++
  formatDefs s.definitions

/-! ## Verifier and pipeline (src/tcs-compiler/src/lib.rs) -/

/-- The builtin scalar type names (spec §3: unsigned/signed integers of
width 8/16/32/64, `byte`, `bool`, `string`, floating-point widths). -/
def builtinScalars : List Str :=
  ["uint8", "uint16", "uint32", "uint64", "int8", "int16", "int32", "int64",
   "byte", "bool", "string", "float32", "float64"].map String.toList

/-- The first duplicate in a list, if any. -/
def firstDup : List Str → Option Str
  | [] => none
  | x :: xs => if x ∈ xs then some x else firstDup xs

/-- Modelled from the spec: the per-definition checks (b), (c), (d), (e) of
`verify_schema` (src/tcs-compiler/src/verifier.rs is not among the provided
sources; only its caller in lib.rs is).  Spec §4.3: (b) field names unique
within the definition; (c) every non-enum field type resolves to a builtin
scalar or a definition name; (d) field ids unique within an Enum or Message;
(e) a present array size is positive.  Fail-fast, read-only. -/
def verifyDefinition (defNames : List Str) (d : Definition) : Except TcsError Unit :=
  match firstDup (d.fields.map Field.name) with
  | some n =>
    .error (.verificationError ("Duplicate field name ".toList ++ quote n ++
      " in ".toList ++ quote d.name))
  | none =>
    match d.fields.find? (fun f =>
        match f.type_ with
        | some t => !(t ∈ builtinScalars) && !(t ∈ defNames)
        | none => false) with
    | some f =>
      .error (.verificationError ("Unknown type ".toList ++
        quote (f.type_.getD []) ++ " for field ".toList ++ quote f.name))
    | none =>
      if d.kind ≠ DefinitionKind.Struct ∧
          (firstDup (d.fields.map (fun f => renderInt f.field_id))).isSome then
        .error (.verificationError ("Duplicate field id in ".toList ++ quote d.name))
      else
        match d.fields.find? (fun f => f.array_size = some 0) with
        | some f =>
          .error (.verificationError ("Array size must be positive for ".toList ++
            quote f.name))
        | none => .ok ()

/-- Modelled from the spec: the fail-fast fold of the per-definition checks
in declaration order. -/
def verifyDefs (defNames : List Str) : List Definition → Except TcsError Unit
  | [] => .ok ()
  | d :: ds =>
    match verifyDefinition defNames d with
    | .error e => .error e
    | .ok _ => verifyDefs defNames ds

/-- Modelled from the spec: `verify_schema` (spec §4.3): check (a) that
definition names are unique across the schema, then the per-definition
checks, fail-fast in declaration order. -/
def verify_schema (s : Schema) : Except TcsError Unit :=
  match firstDup (s.definitions.map Definition.name) with
  | some n => .error (.verificationError ("Duplicate definition name ".toList ++ quote n))
  | none => verifyDefs (s.definitions.map Definition.name) s.definitions

/-- lib.rs `compile`: tokenize, parse, verify, then generate code.  The code
generator (gen_rust.rs, not among the provided sources) is passed as a
parameter; every claim about `compile` below holds for an arbitrary
generator, so nothing about generated code is assumed. -/
def compile (gen : Schema → Str) (source : Str) : PResult Str :=
  match tokenize_schema source with
  | .error e => .err e
  | .ok toks =>
    match parse_schema toks with
    | .panic => .panic
    | .err e => .err e
    | .ok s =>
      match verify_schema s with
      | .error e => .err e
      | .ok _ => .ok (gen s)

/-! ## Concrete inputs used by individual claims -/

/-- Scenario A input text: `enum NodeRole { STORAGE = 1; VALIDATOR = 2; }`. -/
def scenarioAText : Str := "enum NodeRole \x7b STORAGE = 1; VALIDATOR = 2; \x7d".toList

/-- A schema with a package and no definitions. -/
def c9Schema : Schema := { package := some ("p".toList), definitions := [] }

/-- A comment containing a multi-byte character (4 characters, 5 UTF-8 bytes). -/
def c6Text : Str := "// é".toList

/-! ## Reference positions and the scan relation -/

/-- The 1-indexed line of the position after the text `pre`. -/
def refLine (pre : Str) : Nat := 1 + pre.count '\n'

/-- The 1-indexed column of the position after the text `pre`, measured in
UTF-8 bytes since the last newline, exactly as the tokenizer counts it. -/
def refCol (pre : Str) : Nat := 1 + utf8Len (lastLinePart pre)

/-- `Scan prev cs spans rest`: starting with previous-character context
`prev`, the tokenizer's scanner splits a prefix of `cs` into the contiguous
matched `spans` and stops in front of `rest`. -/
inductive Scan : Option Char → Str → List Str → Str → Prop where
  | done (prev : Option Char) (cs : Str) : Scan prev cs [] cs
  | step {prev : Option Char} {cs sp r : Str} {spans : List Str} {rest : Str} :
      matchAt prev cs = some (sp, r) → Scan (lastOr sp prev) r spans rest →
      Scan prev cs (sp :: spans) rest

/-- The tokens the tokenizer emits for the given spans, when `pre` is the
already-consumed text in front of them: whitespace and comment spans are
recognized but dropped, the others carry the position after `pre`. -/
def emitTokens (pre : Str) : List Str → List Token
  | [] => []
  | sp :: spans =>
    (if isWsOrComment sp then [] else [⟨sp, refLine pre, refCol pre⟩]) ++
    emitTokens (pre ++ sp) spans

/-- The shape `tokenize_schema` guarantees: a (possibly empty) run of
nonempty-text tokens followed by exactly one empty-text EOF token.  This is
the invariant under which the parser never reads past the end of its token
slice. -/
def TokListOK (toks : List Token) : Prop :=
  ∃ zs e, toks = zs ++ [e] ∧ e.text = [] ∧ ∀ t ∈ zs, t.text ≠ []

/-! ## Canonical form: spans and token texts of formatted output

The round-trip proof tiles `format_schema s` into the exact spans the token
regex matches (adjacent whitespace pieces merged into one maximal run), and
separately lists the non-whitespace spans, which are the emitted token
texts. -/

/-- Whether the head of `r` (if any) is not a whitespace character. -/
def headNotSpace (r : Str) : Bool :=
  match r with
  | [] => true
  | c :: _ => !isSpaceC c

/-- The texts of the array-suffix tokens of a formatted field: `[N]`, `[]`,
or nothing, exactly as `format_typed_field` renders the suffix. -/
def arrTexts (f : Field) : List Str :=
  if f.is_array then
    match f.array_size with
    | some n => ['[' :: (renderNat n ++ [']'])]
    | none => [['[', ']']]
  else []

/-- The token texts of one formatted field body (without the trailing
semicolon). -/
def fieldTexts (kind : DefinitionKind) (f : Field) : List Str :=
  match kind with
  | DefinitionKind.Enum => [f.name, ['='], renderInt f.field_id]
  | DefinitionKind.Struct => f.type_.getD [] :: (arrTexts f ++ [f.name])
  | DefinitionKind.Message =>
    f.type_.getD [] :: (arrTexts f ++ [f.name, ['='], renderInt f.field_id] ++
      (if f.is_deprecated then [('[' :: depChars)] else []))

/-- The token texts of a formatted field list, each field closed by its
semicolon. -/
def fieldsTexts (kind : DefinitionKind) : List Field → List Str
  | [] => []
  | f :: fs => fieldTexts kind f ++ [[';']] ++ fieldsTexts kind fs

/-- The token texts of one formatted definition. -/
def defTexts (d : Definition) : List Str :=
  [kindKeyword d.kind, d.name, [lbraceChar]] ++
    fieldsTexts d.kind d.fields ++ [[rbraceChar]]

/-- The token texts of a formatted definition list. -/
def defsTexts : List Definition → List Str
  | [] => []
  | d :: ds => defTexts d ++ defsTexts ds

/-- The token texts of a formatted schema. -/
def schemaTexts (s : Schema) : List Str :=
  (match s.package with
   | some pkg => ["package".toList, pkg, [';']]
   | none => []) ++ defsTexts s.definitions

/-- The regex spans of one formatted field body: the token texts interleaved
with the single-space whitespace runs. -/
def fieldSpans (kind : DefinitionKind) (f : Field) : List Str :=
  match kind with
  | DefinitionKind.Enum => [f.name, [' '], ['='], [' '], renderInt f.field_id]
  | DefinitionKind.Struct => f.type_.getD [] :: (arrTexts f ++ [[' '], f.name])
  | DefinitionKind.Message =>
    f.type_.getD [] ::
      (arrTexts f ++ [[' '], f.name, [' '], ['='], [' '], renderInt f.field_id] ++
       (if f.is_deprecated then [[' '], ('[' :: depChars)] else []))

/-- The regex spans of the text following a definition's opening brace: the
newline-plus-indent runs, each field's spans with its semicolon, and the
closing brace. -/
def fieldsRegion (kind : DefinitionKind) : List Field → List Str
  | [] => [['\n'], [rbraceChar]]
  | f :: fs =>
    ('\n' :: "  ".toList) :: (fieldSpans kind f ++ [[';']] ++ fieldsRegion kind fs)

/-- The regex spans of one formatted definition up to its closing brace. -/
def defSpans (d : Definition) : List Str :=
  [kindKeyword d.kind, [' '], d.name, [' '], [lbraceChar]] ++
    fieldsRegion d.kind d.fields

/-- The regex spans of a formatted definition list; the trailing newline of
each definition merges with the following separating blank line into one
whitespace run. -/
def defsSpans : List Definition → List Str
  | [] => []
  | [d] => defSpans d ++ [['\n']]
  | d :: d2 :: ds => defSpans d ++ [['\n', '\n']] ++ defsSpans (d2 :: ds)

/-- The regex spans of a formatted schema. -/
def schemaSpans (s : Schema) : List Str :=
  (match s.package with
   | some pkg =>
     ["package".toList, [' '], pkg, [';']] ++
     (if s.definitions.isEmpty then [['\n']] else [['\n', '\n']])
   | none => []) ++ defsSpans s.definitions

/-- The non-whitespace, non-comment spans: exactly those the tokenizer
emits as tokens. -/
def nonWs (spans : List Str) : List Str :=
  spans.filter (fun sp => !isWsOrComment sp)

/-- `ScanChain prev spans rest`: each span in turn is exactly what the token
regex matches at its own position, with the remaining spans and `rest`
behind it. -/
def ScanChain (prev : Option Char) (spans : List Str) (rest : Str) : Prop :=
  match spans with
  | [] => True
  | sp :: spans' =>
    matchAt prev (sp ++ (spans'.flatten ++ rest)) = some (sp, spans'.flatten ++ rest) ∧
    ScanChain (lastOr sp prev) spans' rest

/-- The previous-character context after scanning `spans`. -/
def chainPrev (prev : Option Char) (spans : List Str) : Option Char :=
  spans.foldl (fun p sp => lastOr sp p) prev

/-- The array-shape invariant the parser establishes on a field: no array
size without the array flag, and any size passed the parser's 64-bit
check. -/
def ArrOK (f : Field) : Prop :=
  (f.is_array = false → f.array_size = none) ∧
  (∀ n, f.array_size = some n → n < 2 ^ 64)

/-- The invariants the parser establishes on a field of a definition of the
given kind: exactly what the round trip through the formatter needs. -/
def WFField (kind : DefinitionKind) (f : Field) : Prop :=
  isIdentText f.name = true ∧
  (match kind with
   | DefinitionKind.Enum =>
     f.type_ = none ∧ f.is_array = false ∧ f.array_size = none ∧
     f.is_deprecated = false ∧ -(2 ^ 31) ≤ f.field_id ∧ f.field_id < 2 ^ 31
   | DefinitionKind.Struct =>
     (∃ t, f.type_ = some t ∧ isIdentText t = true) ∧
     f.is_deprecated = false ∧ ArrOK f
   | DefinitionKind.Message =>
     (∃ t, f.type_ = some t ∧ isIdentText t = true) ∧
     -(2 ^ 31) ≤ f.field_id ∧ f.field_id < 2 ^ 31 ∧ ArrOK f)

/-- The invariants the parser establishes on a definition. -/
def WFDef (d : Definition) : Prop :=
  isIdentText d.name = true ∧ ∀ f ∈ d.fields, WFField d.kind f

/-- The invariants the parser establishes on a schema. -/
def WFSchema (s : Schema) : Prop :=
  (∀ pkg, s.package = some pkg → isIdentText pkg = true) ∧
  ∀ d ∈ s.definitions, WFDef d

/-! # Theorems -/

/-- Unfolding equation for `advancePos`. -/
theorem advancePos_eq (line col : Nat) (sp : Str) :
    advancePos line col sp =
      if 0 < sp.count '\n' then (line + sp.count '\n', utf8Len (lastLinePart sp) + 1)
      else (line, col + utf8Len sp) := rfl

/-- An element of `takeWhile p l` satisfies `p`. -/
theorem mem_takeWhile_sat {p : Char → Bool} {c : Char} :
    ∀ {l : Str}, c ∈ l.takeWhile p → p c = true := by
  intro l
  induction l with
  | nil => intro h; simp [List.takeWhile] at h
  | cons a as ih =>
    intro h
    by_cases hpa : p a = true
    · rw [List.takeWhile_cons, if_pos hpa] at h
      rcases List.mem_cons.mp h with rfl | h2
      · exact hpa
      · exact ih h2
    · rw [List.takeWhile_cons, if_neg hpa] at h
      simp at h

/-- `takeWhile` walks through a run of satisfying elements. -/
theorem takeWhile_append_all {p : Char → Bool} {run : Str} (rest : Str)
    (h : ∀ c ∈ run, p c = true) :
    (run ++ rest).takeWhile p = run ++ rest.takeWhile p := by
  induction run with
  | nil => simp
  | cons a as ih =>
    have ha : p a = true := h a (List.mem_cons_self a as)
    rw [List.cons_append, List.takeWhile_cons, if_pos ha,
      ih (fun c hc => h c (List.mem_cons_of_mem a hc)), List.cons_append]

/-- `dropWhile` walks through a run of satisfying elements. -/
theorem dropWhile_append_all {p : Char → Bool} {run : Str} (rest : Str)
    (h : ∀ c ∈ run, p c = true) :
    (run ++ rest).dropWhile p = rest.dropWhile p := by
  induction run with
  | nil => simp
  | cons a as ih =>
    have ha : p a = true := h a (List.mem_cons_self a as)
    rw [List.cons_append, List.dropWhile_cons, if_pos ha,
      ih (fun c hc => h c (List.mem_cons_of_mem a hc))]

/-- `takeWhile` of a run followed by a failing head is exactly the run. -/
theorem takeWhile_run {p : Char → Bool} {run rest : Str}
    (h1 : ∀ c ∈ run, p c = true)
    (h2 : rest.takeWhile p = []) :
    (run ++ rest).takeWhile p = run := by
  rw [takeWhile_append_all rest h1, h2, List.append_nil]

/-- `dropWhile` of a run followed by a failing head is exactly the tail. -/
theorem dropWhile_run {p : Char → Bool} {run rest : Str}
    (h1 : ∀ c ∈ run, p c = true)
    (h2 : rest.dropWhile p = rest) :
    (run ++ rest).dropWhile p = rest := by
  rw [dropWhile_append_all rest h1, h2]

/-- `takeWhile` on a failing or absent head is empty. -/
theorem takeWhile_head_false {p : Char → Bool} {rest : Str}
    (h : ∀ c t, rest = c :: t → p c = false) :
    rest.takeWhile p = [] := by
  cases rest with
  | nil => rfl
  | cons c t => rw [List.takeWhile_cons, if_neg (by simp [h c t rfl])]

/-- `dropWhile` on a failing or absent head is the identity. -/
theorem dropWhile_head_false {p : Char → Bool} {rest : Str}
    (h : ∀ c t, rest = c :: t → p c = false) :
    rest.dropWhile p = rest := by
  cases rest with
  | nil => rfl
  | cons c t => rw [List.dropWhile_cons, if_neg (by simp [h c t rfl])]

/-- A nonempty `dropWhile p l` starts with an element violating `p`. -/
theorem dropWhile_head_not {p : Char → Bool} :
    ∀ {l : Str}, l.dropWhile p ≠ [] → ∃ c t, l.dropWhile p = c :: t ∧ p c = false := by
  intro l
  induction l with
  | nil => intro h; simp [List.dropWhile] at h
  | cons a as ih =>
    intro h
    by_cases hpa : p a = true
    · rw [List.dropWhile_cons, if_pos hpa] at h ⊢
      exact ih h
    · rw [List.dropWhile_cons, if_neg hpa]
      exact ⟨a, as, rfl, by simpa using hpa⟩

/-- A character sequence containing a newline splits at its last newline,
with `lastLinePart` the newline-free tail. -/
theorem lastLinePart_split {sp : Str} (h : '\n' ∈ sp) :
    ∃ pre, sp = pre ++ '\n' :: lastLinePart sp ∧ '\n' ∉ lastLinePart sp := by
  have hrev : '\n' ∈ sp.reverse := List.mem_reverse.mpr h
  have hdw : sp.reverse.dropWhile (fun c => c ≠ '\n') ≠ [] := by
    intro hnil
    have hall : ∀ x ∈ sp.reverse, (fun c : Char => decide (c ≠ '\n')) x = true :=
      List.dropWhile_eq_nil_iff.mp hnil
    have := hall '\n' hrev
    simp at this
  obtain ⟨c, t, hct, hpc⟩ := dropWhile_head_not hdw
  have hc : c = '\n' := by simpa using hpc
  subst hc
  have hsplit : sp.reverse.takeWhile (fun c => c ≠ '\n') ++ '\n' :: t = sp.reverse := by
    rw [← hct]
    exact List.takeWhile_append_dropWhile (p := fun c => c ≠ '\n') (l := sp.reverse)
  have hnotmem : '\n' ∉ lastLinePart sp := by
    intro hmem
    have : '\n' ∈ sp.reverse.takeWhile (fun c => c ≠ '\n') := by
      simpa [lastLinePart] using hmem
    have := mem_takeWhile_sat this
    simp at this
  refine ⟨t.reverse, ?_, hnotmem⟩
  have hsp : sp = (sp.reverse.takeWhile (fun c => c ≠ '\n') ++ '\n' :: t).reverse := by
    rw [hsplit, List.reverse_reverse]
  calc sp = (sp.reverse.takeWhile (fun c => c ≠ '\n') ++ '\n' :: t).reverse := hsp
    _ = t.reverse ++ '\n' :: lastLinePart sp := by
        simp [lastLinePart, List.reverse_append]

/-- A list whose `head?` is a given element is that element followed by its
tail. -/
theorem eq_cons_of_head? {l : Str} {c : Char} (h : l.head? = some c) :
    l = c :: l.tail := by
  cases l with
  | nil => simp at h
  | cons a t => simp at h; simp [h]

/-- A successful `matchBracket` consumed a nonempty prefix of `[ :: rest`. -/
theorem matchBracket_sound {rest sp r : Str} (h : matchBracket rest = some (sp, r)) :
    sp ++ r = '[' :: rest ∧ sp ≠ [] := by
  unfold matchBracket at h
  split_ifs at h with h1 h2 h3 h4 <;> try exact Option.noConfusion h
  · obtain ⟨rfl, rfl⟩ : '[' :: (rest.takeWhile isDigitC ++ [']']) = sp ∧
        (rest.dropWhile isDigitC).tail = r := by
      have := Option.some.inj h
      exact ⟨congrArg Prod.fst this, congrArg Prod.snd this⟩
    refine ⟨?_, by simp⟩
    have hsplit : rest.takeWhile isDigitC ++ rest.dropWhile isDigitC = rest :=
      List.takeWhile_append_dropWhile isDigitC rest
    have hdw := eq_cons_of_head? h2
    calc ('[' :: (rest.takeWhile isDigitC ++ [']'])) ++ (rest.dropWhile isDigitC).tail
        = '[' :: (rest.takeWhile isDigitC ++ (']' :: (rest.dropWhile isDigitC).tail)) := by
          simp
      _ = '[' :: (rest.takeWhile isDigitC ++ rest.dropWhile isDigitC) := by rw [← hdw]
      _ = '[' :: rest := by rw [hsplit]
  · obtain ⟨rfl, rfl⟩ : ['[', ']'] = sp ∧ rest.tail = r := by
      have := Option.some.inj h
      exact ⟨congrArg Prod.fst this, congrArg Prod.snd this⟩
    refine ⟨?_, by simp⟩
    have := eq_cons_of_head? h3
    simp [← this]
  · obtain ⟨rfl, rfl⟩ : '[' :: depChars = sp ∧ rest.drop depChars.length = r := by
      have := Option.some.inj h
      exact ⟨congrArg Prod.fst this, congrArg Prod.snd this⟩
    refine ⟨?_, by simp⟩
    obtain ⟨tail, htail⟩ := List.isPrefixOf_iff_prefix.mp h4
    rw [← htail]
    simp

/-- C6 (counterexample): the claim predicts that a span without newlines
advances the column by its character length; tokenizing `"// é"` (one
comment span of 4 characters and 5 UTF-8 bytes starting at column 1) would
then leave column 5, but the tokenizer's bookkeeping uses `str::len`, i.e.
UTF-8 byte counts, and leaves column 6. -/
theorem c6_counterexample :
    tokenize_schema c6Text = .ok [⟨[], 1, 6⟩] ∧
    advancePos 1 1 c6Text = (1, 6) ∧
    c6Text.count '\n' = 0 ∧
    c6Text.length = 4 ∧ (6 : Nat) ≠ 1 + 4 := by
  refine ⟨rfl, rfl, rfl, rfl, by decide⟩

/-- C6 (amended): during tokenization, for every matched span: if the span
contains `n ≥ 1` newline characters, the line counter advances by `n` and the
column is reset to 1 plus the UTF-8 byte length of the text after the last
newline in the span; otherwise the column advances by the span's UTF-8 byte
length (`str::len`), not by its character count. -/
theorem c6_advance_bookkeeping (line col : Nat) (sp : Str) :
    (sp.count '\n' = 0 → advancePos line col sp = (line, col + utf8Len sp)) ∧
    (0 < sp.count '\n' →
      ∃ pre suf, sp = pre ++ '\n' :: suf ∧ suf.count '\n' = 0 ∧
        advancePos line col sp = (line + sp.count '\n', 1 + utf8Len suf)) := by
  constructor
  · intro h0
    rw [advancePos_eq, if_neg (by omega)]
  · intro hpos
    have hmem : '\n' ∈ sp := by
      by_contra hn
      rw [List.count_eq_zero_of_not_mem hn] at hpos
      exact Nat.lt_irrefl 0 hpos
    obtain ⟨pre, hsp, hnot⟩ := lastLinePart_split hmem
    refine ⟨pre, lastLinePart sp, hsp, List.count_eq_zero_of_not_mem hnot, ?_⟩
    rw [advancePos_eq, if_pos hpos, Nat.add_comm 1 (utf8Len (lastLinePart sp))]

/-- C6 (witness for the amended statement). -/
theorem c6_advance_bookkeeping_witness :
    advancePos 1 1 ("ab".toList) = (1, 3) ∧
    (∃ pre suf, ("a\nbc".toList) = pre ++ '\n' :: suf ∧ suf.count '\n' = 0 ∧
      advancePos 5 7 ("a\nbc".toList) = (5 + ("a\nbc".toList).count '\n', 1 + utf8Len suf)) :=
  ⟨(c6_advance_bookkeeping 1 1 ("ab".toList)).1 (by decide),
   (c6_advance_bookkeeping 5 7 ("a\nbc".toList)).2 (by decide)⟩

/-- C8: tokenizing and parsing scenario A's input
`enum NodeRole { STORAGE = 1; VALIDATOR = 2; }` yields the schema with the
single Enum definition `NodeRole` with variants `STORAGE = 1` and
`VALIDATOR = 2`, and formatting it yields exactly
`"enum NodeRole {\n  STORAGE = 1;\n  VALIDATOR = 2;\n}\n"`. -/
theorem c8_format_literal :
    ∃ toks s,
      tokenize_schema scenarioAText = .ok toks ∧
      parse_schema toks = .ok s ∧
      s.definitions.map (fun d => (d.name, d.kind, d.fields.map (fun f => (f.name, f.field_id)))) =
        [("NodeRole".toList, DefinitionKind.Enum,
          [("STORAGE".toList, (1 : Int)), ("VALIDATOR".toList, 2)])] ∧
      format_schema s = "enum NodeRole \x7b\n  STORAGE = 1;\n  VALIDATOR = 2;\n\x7d\n".toList := by
  refine ⟨_, _, rfl, rfl, ?_, ?_⟩ <;> rfl

/-- C9 (counterexample): for a schema whose package is present but whose
definition list is empty, the formatter emits `"package p;\n"` with no blank
line, so the output does not start with `"package p;\n\n"` as the claim
requires even in the empty case. -/
theorem c9_counterexample :
    format_schema c9Schema = "package p;\n".toList ∧
    ("package p;\n\n".toList).isPrefixOf (format_schema c9Schema) = false := by
  exact ⟨rfl, rfl⟩

/-- C9 (amended): with a package present, the formatter renders the package
line followed by a blank line and the definitions (with a blank line between
consecutive definitions) only when at least one definition exists; with an
empty definition list the output is exactly `"package <name>;\n"` with no
blank line. -/
theorem c9_package_layout (s : Schema) (pkg : Str) (h : s.package = some pkg) :
    (s.definitions = [] → format_schema s = "package ".toList ++ pkg ++ ";\n".toList) ∧
    (∀ d ds, s.definitions = d :: ds →
      format_schema s =
        "package ".toList ++ pkg ++ ";\n\n".toList ++ format_definition d ++
          (ds.map (fun e => '\n' :: format_definition e)).flatten) := by
  constructor
  · intro hnil
    simp [format_schema, h, hnil, formatDefs]
  · intro d ds hcons
    simp [format_schema, h, hcons, formatDefs]

/-- C9 (witness for the amended statement). -/
theorem c9_package_layout_witness :
    format_schema c9Schema = "package ".toList ++ "p".toList ++ ";\n".toList :=
  (c9_package_layout c9Schema ("p".toList) rfl).1 rfl

/-- The components of an equality of pairs wrapped in `some`. -/
theorem some_pair_inj {α β : Type} {a c : α} {b d : β}
    (h : (some (a, b) : Option (α × β)) = some (c, d)) : a = c ∧ b = d := by
  have := Option.some.inj h
  exact ⟨congrArg Prod.fst this, congrArg Prod.snd this⟩

/-- A successful `matchAt` splits the input into a nonempty span and the
rest. -/
theorem matchAt_sound {prev : Option Char} {cs sp r : Str}
    (h : matchAt prev cs = some (sp, r)) : sp ++ r = cs ∧ sp ≠ [] := by
  cases cs with
  | nil => exact Option.noConfusion h
  | cons c rest =>
    simp only [matchAt] at h
    split_ifs at h with h1 h2 h3 h4 h5 h6 h7 h8 h9 h10 h11 <;>
      try exact Option.noConfusion h
    · -- `-` digits
      obtain ⟨rfl, rfl⟩ := some_pair_inj h
      subst h1
      refine ⟨?_, by simp⟩
      simp [List.takeWhile_append_dropWhile]
    · -- leading digit
      obtain ⟨rfl, rfl⟩ := some_pair_inj h
      refine ⟨List.takeWhile_append_dropWhile isDigitC (c :: rest), ?_⟩
      rw [List.takeWhile_cons, if_pos h3]
      simp
    · -- punctuation
      obtain ⟨rfl, rfl⟩ := some_pair_inj h
      exact ⟨rfl, by simp⟩
    · -- brackets
      subst h6
      exact matchBracket_sound h
    · -- identifier
      obtain ⟨rfl, rfl⟩ := some_pair_inj h
      refine ⟨List.takeWhile_append_dropWhile isWordC (c :: rest), ?_⟩
      have hw : isWordC c = true := by
        simp only [Bool.or_eq_true, decide_eq_true_eq] at h7
        rcases h7 with h7 | h7
        · simp [isWordC, h7]
        · simp [isWordC, h7]
      rw [List.takeWhile_cons, if_pos hw]
      simp
    · -- comment
      obtain ⟨rfl, rfl⟩ := some_pair_inj h
      subst h9
      refine ⟨List.takeWhile_append_dropWhile _ _, ?_⟩
      rw [List.takeWhile_cons, if_pos (by simp)]
      simp
    · -- whitespace
      obtain ⟨rfl, rfl⟩ := some_pair_inj h
      refine ⟨List.takeWhile_append_dropWhile isSpaceC (c :: rest), ?_⟩
      rw [List.takeWhile_cons, if_pos h11]
      simp

/-- Unfolding equation of `findFrom` on a nonempty input. -/
theorem findFrom_cons (prev : Option Char) (c : Char) (rest : Str) :
    findFrom prev (c :: rest) =
      match matchAt prev (c :: rest) with
      | some (sp, r) => some ([], sp, r)
      | none =>
        match findFrom (some c) rest with
        | some (g, sp, r) => some (c :: g, sp, r)
        | none => none := rfl

/-- UTF-8 byte length is additive. -/
theorem utf8Len_append (a b : Str) : utf8Len (a ++ b) = utf8Len a + utf8Len b := by
  simp [utf8Len]

/-- `takeWhile` stops inside `a` when `a` contains a failing element. -/
theorem takeWhile_append_of_stop {p : Char → Bool} {a : Str} (b : Str)
    (h : a.dropWhile p ≠ []) : (a ++ b).takeWhile p = a.takeWhile p := by
  obtain ⟨x, t, hct, hpx⟩ := dropWhile_head_not h
  have ha : a = a.takeWhile p ++ (x :: t) := by
    rw [← hct, List.takeWhile_append_dropWhile]
  rw [ha]
  rw [List.append_assoc, List.cons_append]
  rw [takeWhile_append_all (x :: (t ++ b)) (fun c hc => mem_takeWhile_sat hc),
    takeWhile_append_all (x :: t) (fun c hc => mem_takeWhile_sat hc)]
  rw [List.takeWhile_cons, if_neg (by simp [hpx]), List.takeWhile_cons, if_neg (by simp [hpx])]

/-- Appending newline-free text extends the last line. -/
theorem lastLinePart_append_no_nl {pre sp : Str} (h : '\n' ∉ sp) :
    lastLinePart (pre ++ sp) = lastLinePart pre ++ sp := by
  unfold lastLinePart
  rw [List.reverse_append]
  rw [takeWhile_append_all pre.reverse (fun c hc => by
    simp only [decide_eq_true_eq]
    intro hcn
    subst hcn
    exact h (List.mem_reverse.mp hc))]
  simp

/-- Appending text containing a newline replaces the last line. -/
theorem lastLinePart_append_nl {pre sp : Str} (h : '\n' ∈ sp) :
    lastLinePart (pre ++ sp) = lastLinePart sp := by
  unfold lastLinePart
  rw [List.reverse_append]
  rw [takeWhile_append_of_stop pre.reverse (by
    intro hnil
    have hall := List.dropWhile_eq_nil_iff.mp hnil
    have := hall '\n' (List.mem_reverse.mpr h)
    simp at this)]

/-- The tokenizer's position bookkeeping agrees with the reference
positions: advancing over a span moves from the position after `pre` to the
position after `pre ++ sp`. -/
theorem advancePos_ref (pre sp : Str) :
    advancePos (refLine pre) (refCol pre) sp = (refLine (pre ++ sp), refCol (pre ++ sp)) := by
  by_cases h : 0 < sp.count '\n'
  · have hmem : '\n' ∈ sp := by
      by_contra hn
      rw [List.count_eq_zero_of_not_mem hn] at h
      exact Nat.lt_irrefl 0 h
    rw [advancePos_eq, if_pos h]
    refine Prod.ext ?_ ?_
    · simp [refLine, List.count_append]
      omega
    · simp [refCol, lastLinePart_append_nl hmem]
      omega
  · have h0 : sp.count '\n' = 0 := by omega
    have hnot : '\n' ∉ sp := by
      intro hmem
      have := List.count_pos_iff.mpr hmem
      omega
    rw [advancePos_eq, if_neg h]
    refine Prod.ext ?_ ?_
    · simp [refLine, List.count_append, h0]
    · simp [refCol, lastLinePart_append_no_nl hnot, utf8Len_append]
      omega

/-- For a nonempty span, `lastOr` computes the last character of the
extended prefix. -/
theorem lastOr_ref {sp : Str} (pre : Str) (h : sp ≠ []) :
    lastOr sp pre.getLast? = (pre ++ sp).getLast? := by
  cases hl : sp.getLast? with
  | none => exact absurd (List.getLast?_eq_none_iff.mp hl) h
  | some c =>
    unfold lastOr
    rw [hl, List.getLast?_append_of_ne_nil pre h, hl]

/-- Unfolding equation of the tokenizer loop with fuel available. -/
theorem tokenizeLoop_succ (fuel : Nat) (prev : Option Char) (line column : Nat)
    (acc : List Token) (cs : Str) :
    tokenizeLoop (fuel + 1) prev line column acc cs =
      match findFrom prev cs with
      | none =>
        if cs.isEmpty then .ok (acc ++ [⟨[], line, column⟩])
        else .error (.parseError (syntaxErrMsg cs) line column)
      | some (gap, sp, rest) =>
        if gap.isEmpty then
          tokenizeLoop fuel (lastOr sp prev)
            (advancePos line column sp).1 (advancePos line column sp).2
            (if isWsOrComment sp then acc else acc ++ [⟨sp, line, column⟩]) rest
        else .error (.parseError (syntaxErrMsg gap) line column) := rfl

/-- An identifier text is nonempty and starts with a letter or underscore. -/
theorem isIdentText_head {s : Str} (h : isIdentText s = true) :
    ∃ c r, s = c :: r ∧ (isAlphaC c || decide (c = '_')) = true := by
  cases s with
  | nil => simp [isIdentText] at h
  | cons c r =>
    refine ⟨c, r, rfl, ?_⟩
    simp [isIdentText] at h
    rcases h with ⟨h1, _⟩
    simpa using h1

/-- A letter or underscore is none of the punctuation characters the parser
distinguishes. -/
theorem ident_head_not_special {c : Char} (h : (isAlphaC c || decide (c = '_')) = true) :
    c ≠ '[' ∧ c ≠ ';' ∧ c ≠ '=' ∧ c ≠ rbraceChar := by
  simp only [Bool.or_eq_true, decide_eq_true_eq] at h
  rcases h with h | h
  · simp only [isAlphaC, Bool.or_eq_true, Bool.and_eq_true, decide_eq_true_eq] at h
    rcases h with ⟨h1, h2⟩ | ⟨h1, h2⟩ <;>
      refine ⟨?_, ?_, ?_, ?_⟩ <;> intro hc <;> subst hc <;>
        first
          | exact absurd h1 (by decide)
          | exact absurd h2 (by decide)
  · subst h; refine ⟨by decide, by decide, by decide, by decide⟩

/-- An identifier is not the `[]` token. -/
theorem isIdent_not_array {s : Str} (h : isIdentText s = true) : isArrayText s = false := by
  obtain ⟨c, r, rfl, hc⟩ := isIdentText_head h
  obtain ⟨h1, _⟩ := ident_head_not_special hc
  simp [isArrayText]
  intro hcon
  exact absurd (by rw [hcon]) h1

/-- An identifier is not a fixed-array token. -/
theorem isIdent_not_fixed {s : Str} (h : isIdentText s = true) :
    fixedArrayCapture s = none := by
  obtain ⟨c, r, rfl, hc⟩ := isIdentText_head h
  obtain ⟨h1, _⟩ := ident_head_not_special hc
  unfold fixedArrayCapture
  rw [if_neg (by simp [h1])]

/-- An identifier is not the `;` token. -/
theorem isIdent_not_semi {s : Str} (h : isIdentText s = true) :
    decide (s = [';']) = false := by
  obtain ⟨c, r, rfl, hc⟩ := isIdentText_head h
  obtain ⟨_, h2, _⟩ := ident_head_not_special hc
  simp
  intro hcon
  exact absurd (by rw [hcon]) h2

/-- An identifier is not the `}` token. -/
theorem isIdent_not_rbrace {s : Str} (h : isIdentText s = true) :
    decide (s = [rbraceChar]) = false := by
  obtain ⟨c, r, rfl, hc⟩ := isIdentText_head h
  obtain ⟨_, _, _, h4⟩ := ident_head_not_special hc
  simp
  intro hcon
  exact absurd (by rw [hcon]) h4

/-- An identifier is not the `=` token. -/
theorem isIdent_not_eq {s : Str} (h : isIdentText s = true) :
    decide (s = ['=']) = false := by
  obtain ⟨c, r, rfl, hc⟩ := isIdentText_head h
  obtain ⟨_, _, h3, _⟩ := ident_head_not_special hc
  simp
  intro hcon
  exact absurd (by rw [hcon]) h3

/-- Head inversion for the tokenizer invariant: either the head is the EOF
token (and ends the list), or it is a real token and the tail keeps the
invariant. -/
theorem TokListOK.cons_cases {t : Token} {r : List Token} (h : TokListOK (t :: r)) :
    (t.text = [] ∧ r = []) ∨ (t.text ≠ [] ∧ TokListOK r) := by
  obtain ⟨zs, e, heq, he, hzs⟩ := h
  cases zs with
  | nil =>
    simp at heq
    obtain ⟨h1, h2⟩ := heq
    refine Or.inl ⟨?_, h2⟩
    rw [h1]; exact he
  | cons z zr =>
    simp at heq
    obtain ⟨h1, h2⟩ := heq
    refine Or.inr ⟨?_, zr, e, h2, he, ?_⟩
    · rw [h1]; exact hzs z (by simp)
    · intro x hx; exact hzs x (by simp [hx])

/-- The tail of an invariant-keeping list behind a nonempty-text head keeps
the invariant. -/
theorem TokListOK.tail {t : Token} {r : List Token} (h : TokListOK (t :: r))
    (hne : t.text ≠ []) : TokListOK r := by
  rcases h.cons_cases with ⟨h1, _⟩ | ⟨_, h2⟩
  · exact absurd h1 hne
  · exact h2

/-- A definition that passes verification has every field type resolved
against the builtin scalars or the definition names. -/
theorem verifyDefinition_ok_types {defNames : List Str} {d : Definition}
    (h : verifyDefinition defNames d = .ok ()) :
    ∀ f ∈ d.fields, ∀ t, f.type_ = some t → t ∈ builtinScalars ∨ t ∈ defNames := by
  intro f hf t ht
  unfold verifyDefinition at h
  cases hdup : firstDup (d.fields.map Field.name) with
  | some n => rw [hdup] at h; exact Except.noConfusion h
  | none =>
    rw [hdup] at h
    cases hfind : d.fields.find? (fun f =>
        match f.type_ with
        | some t => !(t ∈ builtinScalars) && !(t ∈ defNames)
        | none => false) with
    | some f0 => rw [hfind] at h; exact Except.noConfusion h
    | none =>
      have hall := List.find?_eq_none.mp hfind f hf
      simp only [ht] at hall
      by_contra hcon
      push_neg at hcon
      obtain ⟨h1, h2⟩ := hcon
      simp [h1, h2] at hall

/-- A passing fail-fast fold means every definition passed. -/
theorem verifyDefs_ok {defNames : List Str} :
    ∀ {ds : List Definition}, verifyDefs defNames ds = .ok () →
      ∀ d ∈ ds, verifyDefinition defNames d = .ok () := by
  intro ds
  induction ds with
  | nil => intro _ d hd; simp at hd
  | cons d0 ds ih =>
    intro h d hd
    unfold verifyDefs at h
    cases hv : verifyDefinition defNames d0 with
    | error e => rw [hv] at h; exact Except.noConfusion h
    | ok u =>
      rw [hv] at h
      rcases List.mem_cons.mp hd with rfl | hd2
      · cases u; exact hv
      · exact ih h d hd2

/-- A schema that passes verification has every field type resolved. -/
theorem verify_schema_ok_types {s : Schema} (h : verify_schema s = .ok ()) :
    ∀ d ∈ s.definitions, ∀ f ∈ d.fields, ∀ t, f.type_ = some t →
      t ∈ builtinScalars ∨ ∃ d' ∈ s.definitions, d'.name = t := by
  intro d hd f hf t ht
  unfold verify_schema at h
  cases hdup : firstDup (s.definitions.map Definition.name) with
  | some n => rw [hdup] at h; exact Except.noConfusion h
  | none =>
    rw [hdup] at h
    have hdef := verifyDefs_ok h d hd
    rcases verifyDefinition_ok_types hdef f hf t ht with h1 | h2
    · exact Or.inl h1
    · right
      obtain ⟨d', hd', hname⟩ := List.mem_map.mp h2
      exact ⟨d', hd', hname⟩

/-- C5: a parsed schema referencing a type name that matches no definition
name and no builtin scalar always fails at the verification stage, and the
compile pipeline propagates that verification error instead of producing
generated code — for an arbitrary code generator `gen`. -/
theorem c5_undefined_type (gen : Schema → Str) (source : Str)
    (toks : List Token) (s : Schema)
    (htok : tokenize_schema source = .ok toks)
    (hparse : parse_schema toks = .ok s)
    (hbad : ∃ d ∈ s.definitions, ∃ f ∈ d.fields, ∃ t, f.type_ = some t ∧
      t ∉ builtinScalars ∧ ∀ d' ∈ s.definitions, d'.name ≠ t) :
    ∃ e, verify_schema s = .error e ∧ compile gen source = .err e := by
  obtain ⟨d, hd, f, hf, t, ht, hnb, hnd⟩ := hbad
  cases hv : verify_schema s with
  | ok u =>
    exfalso
    cases u
    rcases verify_schema_ok_types hv d hd f hf t ht with h1 | ⟨d', hd', hname⟩
    · exact hnb h1
    · exact hnd d' hd' hname
  | error e =>
    refine ⟨e, rfl, ?_⟩
    simp only [compile, htok, hparse, hv]

/-- C5 (witness): `struct Bad { Unknown field; }`. -/
theorem c5_undefined_type_witness :
    ∃ e, verify_schema
        ⟨none, [⟨"Bad".toList, 1, 8, DefinitionKind.Struct,
          [⟨"field".toList, 1, 22, some ("Unknown".toList), false, none, false, 1⟩]⟩]⟩ =
        .error e ∧
      compile (fun _ => []) ("struct Bad \x7b Unknown field; \x7d".toList) = .err e :=
  c5_undefined_type (fun _ => []) ("struct Bad \x7b Unknown field; \x7d".toList) _
    ⟨none, [⟨"Bad".toList, 1, 8, DefinitionKind.Struct,
      [⟨"field".toList, 1, 22, some ("Unknown".toList), false, none, false, 1⟩]⟩]⟩
    rfl rfl
    ⟨⟨"Bad".toList, 1, 8, DefinitionKind.Struct,
        [⟨"field".toList, 1, 22, some ("Unknown".toList), false, none, false, 1⟩]⟩,
      by decide, ⟨"field".toList, 1, 22, some ("Unknown".toList), false, none, false, 1⟩,
      by decide, "Unknown".toList, rfl, by decide, by decide⟩

/-- The code of a decimal digit character. -/
theorem digitChar_toNat {n : Nat} (h : n < 10) : (digitChar n).toNat = 48 + n := by
  interval_cases n <;> decide

/-- A rendered digit is in the digit class. -/
theorem digitChar_digit {n : Nat} (h : n < 10) : isDigitC (digitChar n) = true := by
  interval_cases n <;> decide

/-- The digit accumulator prepends a nonempty block of digits. -/
theorem natDigitsAux_shape :
    ∀ (fuel n : Nat) (acc : Str), n < fuel →
      ∃ ds, natDigitsAux fuel n acc = ds ++ acc ∧ ds ≠ [] ∧
        ∀ c ∈ ds, isDigitC c = true := by
  intro fuel
  induction fuel with
  | zero => intro n acc h; omega
  | succ fuel ih =>
    intro n acc h
    by_cases h10 : n < 10
    · refine ⟨[digitChar n], ?_, by simp, ?_⟩
      · simp [natDigitsAux, h10]
      · intro c hc
        rw [List.mem_singleton.mp hc]
        exact digitChar_digit h10
    · have hlt : n / 10 < fuel := by omega
      obtain ⟨ds, heq, hne, hall⟩ := ih (n / 10) (digitChar (n % 10) :: acc) hlt
      refine ⟨ds ++ [digitChar (n % 10)], ?_, by simp [hne], ?_⟩
      · rw [natDigitsAux]
        rw [if_neg h10, heq]
        simp
      · intro c hc
        rcases List.mem_append.mp hc with h1 | h2
        · exact hall c h1
        · rw [List.mem_singleton.mp h2]
          exact digitChar_digit (Nat.mod_lt n (by omega))

/-- The decimal fold over the accumulated digits recovers the value,
up to the positional weight of the accumulator seed. -/
theorem natDigitsAux_fold :
    ∀ (fuel n : Nat) (acc : Str) (a : Nat), n < fuel →
      ∃ p, 0 < p ∧
        (natDigitsAux fuel n acc).foldl (fun x c => x * 10 + (c.toNat - 48)) a =
          acc.foldl (fun x c => x * 10 + (c.toNat - 48)) (a * p + n) := by
  intro fuel
  induction fuel with
  | zero => intro n acc a h; omega
  | succ fuel ih =>
    intro n acc a h
    by_cases h10 : n < 10
    · refine ⟨10, by omega, ?_⟩
      rw [natDigitsAux, if_pos h10]
      simp [List.foldl_cons, digitChar_toNat h10]
    · have hlt : n / 10 < fuel := by omega
      obtain ⟨p, hp, heq⟩ := ih (n / 10) (digitChar (n % 10) :: acc) a hlt
      refine ⟨p * 10, by positivity, ?_⟩
      rw [natDigitsAux, if_neg h10, heq]
      simp only [List.foldl_cons]
      congr 1
      have hm : (digitChar (n % 10)).toNat = 48 + n % 10 :=
        digitChar_toNat (Nat.mod_lt n (by omega))
      rw [hm, ← Nat.mul_assoc]
      omega

/-- A rendered natural number is a nonempty digit string. -/
theorem renderNat_shape (n : Nat) :
    renderNat n ≠ [] ∧ ∀ c ∈ renderNat n, isDigitC c = true := by
  obtain ⟨ds, heq, hne, hall⟩ := natDigitsAux_shape (n + 1) n [] (by omega)
  unfold renderNat
  rw [heq, List.append_nil]
  exact ⟨hne, hall⟩

/-- Parsing the decimal rendering of a natural number recovers it. -/
theorem digitsToNat_renderNat (n : Nat) : digitsToNat (renderNat n) = n := by
  obtain ⟨p, hp, heq⟩ := natDigitsAux_fold (n + 1) n [] 0 (by omega)
  unfold digitsToNat renderNat
  rw [heq]
  simp

/-- The parser's array-size reader inverts `renderNat` within 64 bits. -/
theorem parseUsize_renderNat {n : Nat} (h : n < 2 ^ 64) :
    parseUsize (renderNat n) = some n := by
  obtain ⟨hne, hall⟩ := renderNat_shape n
  unfold parseUsize
  rw [if_pos]
  · rw [digitsToNat_renderNat]
  · simp only [Bool.and_eq_true, Bool.not_eq_true', decide_eq_true_eq]
    refine ⟨⟨?_, ?_⟩, ?_⟩
    · simpa [List.isEmpty_iff] using hne
    · exact List.all_eq_true.mpr hall
    · rw [digitsToNat_renderNat]; exact h

/-- Rendering a non-negative integer renders its natural value. -/
theorem renderInt_nonneg {v : Int} (h : 0 ≤ v) : renderInt v = renderNat v.toNat := by
  unfold renderInt
  rw [if_neg (by omega)]

/-- Rendering a negative integer prepends the minus sign. -/
theorem renderInt_neg {v : Int} (h : v < 0) : renderInt v = '-' :: renderNat v.natAbs := by
  unfold renderInt
  rw [if_pos h]

/-- A rendered integer matches the INTEGER token pattern. -/
theorem isIntegerText_renderInt (v : Int) : isIntegerText (renderInt v) = true := by
  by_cases h : v < 0
  · rw [renderInt_neg h]
    obtain ⟨hne, hall⟩ := renderNat_shape v.natAbs
    simp only [isIntegerText]
    simp [hne, List.all_eq_true.mpr hall]
  · rw [renderInt_nonneg (by omega)]
    obtain ⟨hne, hall⟩ := renderNat_shape v.toNat
    obtain ⟨c, r, hcr, hc⟩ : ∃ c r, renderNat v.toNat = c :: r ∧ isDigitC c = true := by
      cases hrn : renderNat v.toNat with
      | nil => exact absurd hrn hne
      | cons c r => exact ⟨c, r, rfl, hall c (by rw [hrn]; exact List.mem_cons_self c r)⟩
    rw [hcr]
    have hcm : c ≠ '-' := by
      intro h0; rw [h0] at hc; exact Bool.noConfusion hc
    unfold isIntegerText
    split
    · next heq =>
      exact absurd (List.cons.inj heq).1 hcm
    · rw [← hcr]
      simp [hne, List.all_eq_true.mpr hall]

/-- The parser's `i32` reader inverts `renderInt` within the `i32` range. -/
theorem parseI32_renderInt {v : Int} (h1 : -(2 ^ 31) ≤ v) (h2 : v < 2 ^ 31) :
    parseI32 (renderInt v) = some v := by
  by_cases h : v < 0
  · rw [renderInt_neg h]
    obtain ⟨hne, hall⟩ := renderNat_shape v.natAbs
    unfold parseI32
    split
    · next ds heq =>
      obtain rfl : renderNat v.natAbs = ds := (List.cons.inj heq).2
      rw [if_pos]
      · rw [digitsToNat_renderNat]
        congr 1
        omega
      · simp only [Bool.and_eq_true, Bool.not_eq_true', decide_eq_true_eq]
        refine ⟨⟨by simpa [List.isEmpty_iff] using hne, List.all_eq_true.mpr hall⟩, ?_⟩
        rw [digitsToNat_renderNat]
        omega
    · next hno =>
      exact absurd rfl (hno (renderNat v.natAbs))
  · rw [renderInt_nonneg (by omega)]
    obtain ⟨hne, hall⟩ := renderNat_shape v.toNat
    obtain ⟨c, r, hcr, hc⟩ : ∃ c r, renderNat v.toNat = c :: r ∧ isDigitC c = true := by
      cases hrn : renderNat v.toNat with
      | nil => exact absurd hrn hne
      | cons c r => exact ⟨c, r, rfl, hall c (by rw [hrn]; exact List.mem_cons_self c r)⟩
    have hcm : c ≠ '-' := by
      intro h0; rw [h0] at hc; exact Bool.noConfusion hc
    rw [hcr]
    unfold parseI32
    split
    · next heq => exact absurd (List.cons.inj heq).1 hcm
    · rw [← hcr, if_pos]
      · rw [digitsToNat_renderNat]
        congr 1
        omega
      · simp only [Bool.and_eq_true, Bool.not_eq_true', decide_eq_true_eq]
        refine ⟨⟨by simpa [List.isEmpty_iff] using hne, List.all_eq_true.mpr hall⟩, ?_⟩
        rw [digitsToNat_renderNat]
        omega

/-- A rendered integer starts with a minus sign or a digit. -/
theorem renderInt_head (v : Int) :
    ∃ c r, renderInt v = c :: r ∧ (c = '-' ∨ isDigitC c = true) := by
  by_cases h : v < 0
  · exact ⟨'-', renderNat v.natAbs, renderInt_neg h, Or.inl rfl⟩
  · rw [renderInt_nonneg (by omega)]
    obtain ⟨hne, hall⟩ := renderNat_shape v.toNat
    cases hrn : renderNat v.toNat with
    | nil => exact absurd hrn hne
    | cons c r =>
      exact ⟨c, r, rfl, Or.inr (hall c (by rw [hrn]; exact List.mem_cons_self c r))⟩

/-- No character between the digit and letter blocks is whitespace. -/
theorem not_space_of_bounds {c : Char} (h0 : '0' ≤ c) (hz : c ≤ 'z') :
    isSpaceC c = false := by
  have hne : ∀ x : Char, ('z' < x ∨ x < '0') → decide (c = x) = false := by
    intro x hx
    simp only [decide_eq_false_iff_not]
    intro h
    subst h
    rcases hx with hx | hx
    · exact absurd (lt_of_le_of_lt hz hx) (lt_irrefl c)
    · exact absurd (lt_of_lt_of_le hx h0) (lt_irrefl c)
  have hrange : decide (Char.ofNat 0x2000 ≤ c) = false := by
    simp only [decide_eq_false_iff_not]
    intro hcon
    exact absurd (le_trans hcon hz) (by decide)
  unfold isSpaceC
  rw [hne ' ' (Or.inr (by decide)), hne '\t' (Or.inr (by decide)),
      hne '\n' (Or.inr (by decide)), hne (Char.ofNat 0x0b) (Or.inr (by decide)),
      hne (Char.ofNat 0x0c) (Or.inr (by decide)), hne '\r' (Or.inr (by decide)),
      hne (Char.ofNat 0x85) (Or.inl (by decide)), hne (Char.ofNat 0xa0) (Or.inl (by decide)),
      hne (Char.ofNat 0x1680) (Or.inl (by decide)), hrange,
      hne (Char.ofNat 0x2028) (Or.inl (by decide)), hne (Char.ofNat 0x2029) (Or.inl (by decide)),
      hne (Char.ofNat 0x202f) (Or.inl (by decide)), hne (Char.ofNat 0x205f) (Or.inl (by decide)),
      hne (Char.ofNat 0x3000) (Or.inl (by decide))]
  simp

/-- Word characters lie between `0` and `z`. -/
theorem word_bounds {c : Char} (h : isWordC c = true) : '0' ≤ c ∧ c ≤ 'z' := by
  simp only [isWordC, isAlphaC, isDigitC, Bool.or_eq_true, Bool.and_eq_true,
    decide_eq_true_eq] at h
  rcases h with ((⟨h1, h2⟩ | ⟨h1, h2⟩) | ⟨h1, h2⟩) | h1
  · exact ⟨le_trans (by decide) h1, h2⟩
  · exact ⟨le_trans (by decide) h1, le_trans h2 (by decide)⟩
  · exact ⟨h1, le_trans h2 (by decide)⟩
  · subst h1; exact ⟨by decide, by decide⟩

/-- A word character is not whitespace. -/
theorem word_not_space {c : Char} (h : isWordC c = true) : isSpaceC c = false := by
  obtain ⟨h0, hz⟩ := word_bounds h
  exact not_space_of_bounds h0 hz

/-- A digit is not whitespace. -/
theorem digit_not_space {c : Char} (h : isDigitC c = true) : isSpaceC c = false :=
  word_not_space (by simp [isWordC, h])

/-- An identifier's head character falls through every earlier
alternative of the token regex. -/
theorem identHead_facts {c : Char} (h : (isAlphaC c || decide (c = '_')) = true) :
    c ≠ '-' ∧ isDigitC c = false ∧
    (c ≠ '=' ∧ c ≠ ';' ∧ c ≠ lbraceChar ∧ c ≠ rbraceChar) ∧
    c ≠ '[' ∧ c ≠ '/' ∧ isWordC c = true := by
  have hword : isWordC c = true := by
    simp only [isWordC, Bool.or_eq_true] at h ⊢
    rcases h with h | h
    · exact Or.inl (Or.inl h)
    · exact Or.inr h
  obtain ⟨hb0, hbz⟩ := word_bounds hword
  have hdig : isDigitC c = false := by
    simp only [Bool.or_eq_true, decide_eq_true_eq] at h
    rcases h with h | h
    · simp only [isAlphaC, Bool.or_eq_true, Bool.and_eq_true, decide_eq_true_eq] at h
      by_contra hc
      have hd : isDigitC c = true := by revert hc; cases isDigitC c <;> simp
      simp only [isDigitC, Bool.and_eq_true, decide_eq_true_eq] at hd
      rcases h with ⟨h1, _⟩ | ⟨h1, _⟩
      · exact absurd (le_trans h1 hd.2) (by decide)
      · exact absurd (le_trans h1 hd.2) (by decide)
    · subst h; decide
  obtain ⟨hlb, hsemi, heq, hrb⟩ := ident_head_not_special h
  refine ⟨?_, hdig, ⟨heq, hsemi, ?_, hrb⟩, hlb, ?_, hword⟩
  · intro hcon; subst hcon; exact absurd hb0 (by decide)
  · intro hcon; subst hcon; exact absurd hbz (by decide)
  · intro hcon; subst hcon; exact absurd hb0 (by decide)

/-- Every character of an identifier is a word character. -/
theorem isIdentText_all_word {s : Str} (h : isIdentText s = true) :
    ∀ c ∈ s, isWordC c = true := by
  obtain ⟨c, r, rfl, hc⟩ := isIdentText_head h
  intro x hx
  rcases List.mem_cons.mp hx with rfl | hx2
  · exact (identHead_facts hc).2.2.2.2.2
  · have hr : r.all isWordC = true := by
      simp only [isIdentText, Bool.and_eq_true] at h
      exact h.2
    exact List.all_eq_true.mp hr x hx2

/-- A run predicate implying word-ness takes nothing from a text whose
head is not a word character. -/
theorem headNotWord_takeWhile {p : Char → Bool} {tail : Str}
    (hp : ∀ c, p c = true → isWordC c = true)
    (h : headNotWord tail = true) : tail.takeWhile p = [] := by
  refine takeWhile_head_false ?_
  intro c t hct
  subst hct
  simp only [headNotWord, Bool.not_eq_true'] at h
  by_contra hc
  have hpc : p c = true := by revert hc; cases p c <;> simp
  rw [hp c hpc] at h
  exact Bool.noConfusion h

/-- The token regex matches exactly an identifier span when the context
is a word boundary and the following character is not a word character. -/
theorem matchAt_ident {prev : Option Char} {sp tail : Str}
    (hsp : isIdentText sp = true)
    (hprev : wordBoundaryAt prev = true)
    (htail : headNotWord tail = true) :
    matchAt prev (sp ++ tail) = some (sp, tail) := by
  obtain ⟨c, r, rfl, hc⟩ := isIdentText_head hsp
  obtain ⟨hm, hdig, hpunct, hbrk, hsl, hword⟩ := identHead_facts hc
  have hall : ∀ x ∈ c :: r, isWordC x = true := isIdentText_all_word hsp
  have htwt : tail.takeWhile isWordC = [] :=
    headNotWord_takeWhile (fun _ hx => hx) htail
  have hdwt : tail.dropWhile isWordC = tail := by
    refine dropWhile_head_false ?_
    intro x t hxt
    subst hxt
    simp only [headNotWord, Bool.not_eq_true'] at htail
    exact htail
  have htw : ((c :: r) ++ tail).takeWhile isWordC = c :: r := takeWhile_run hall htwt
  have hdw : ((c :: r) ++ tail).dropWhile isWordC = tail := dropWhile_run hall hdwt
  show matchAt prev (c :: (r ++ tail)) = some (c :: r, tail)
  simp only [matchAt]
  rw [if_neg hm, if_neg (by simp [hdig]),
    if_neg (by simp [hpunct.1, hpunct.2.1, hpunct.2.2.1, hpunct.2.2.2]), if_neg hbrk,
    if_pos (by simpa using hc), if_pos (by simpa using hprev)]
  rw [show c :: (r ++ tail) = (c :: r) ++ tail from rfl, htw, hdw]

/-- A digit run followed by a non-word head splits cleanly under the
digit predicate. -/
theorem digits_takeWhile {ds tail : Str} (h1 : ∀ c ∈ ds, isDigitC c = true)
    (htail : headNotWord tail = true) :
    (ds ++ tail).takeWhile isDigitC = ds ∧ (ds ++ tail).dropWhile isDigitC = tail := by
  have htwt : tail.takeWhile isDigitC = [] :=
    headNotWord_takeWhile (fun c hc => by simp [isWordC, hc]) htail
  have hdwt : tail.dropWhile isDigitC = tail := by
    refine dropWhile_head_false ?_
    intro x t hxt
    subst hxt
    simp only [headNotWord, Bool.not_eq_true'] at htail
    by_contra hc
    have hxd : isDigitC x = true := by revert hc; cases isDigitC x <;> simp
    have : isWordC x = true := by simp [isWordC, hxd]
    rw [this] at htail
    exact Bool.noConfusion htail
  exact ⟨takeWhile_run h1 htwt, dropWhile_run h1 hdwt⟩

/-- The token regex matches exactly a digit span at a word boundary
with a non-word character behind it. -/
theorem matchAt_digits {prev : Option Char} {ds tail : Str}
    (h1 : ds ≠ []) (h2 : ∀ c ∈ ds, isDigitC c = true)
    (hprev : wordBoundaryAt prev = true)
    (htail : headNotWord tail = true) :
    matchAt prev (ds ++ tail) = some (ds, tail) := by
  obtain ⟨htw, hdw⟩ := digits_takeWhile h2 htail
  cases ds with
  | nil => exact absurd rfl h1
  | cons c r =>
    have hcd : isDigitC c = true := h2 c (List.mem_cons_self c r)
    have hcm : c ≠ '-' := by
      intro hcon; rw [hcon] at hcd; exact Bool.noConfusion hcd
    show matchAt prev (c :: (r ++ tail)) = some (c :: r, tail)
    simp only [matchAt]
    rw [if_neg hcm, if_pos hcd,
      if_pos (by rw [show c :: (r ++ tail) = (c :: r) ++ tail from rfl, hdw]
                 simp [hprev, htail]),
      show c :: (r ++ tail) = (c :: r) ++ tail from rfl, htw, hdw]

/-- The token regex matches exactly a minus-digits span with a non-word
character behind it. -/
theorem matchAt_neg {prev : Option Char} {ds tail : Str}
    (h1 : ds ≠ []) (h2 : ∀ c ∈ ds, isDigitC c = true)
    (htail : headNotWord tail = true) :
    matchAt prev (('-' :: ds) ++ tail) = some ('-' :: ds, tail) := by
  obtain ⟨htw, hdw⟩ := digits_takeWhile h2 htail
  show matchAt prev ('-' :: (ds ++ tail)) = some ('-' :: ds, tail)
  simp only [matchAt]
  rw [if_pos trivial, if_pos (by rw [htw, hdw]; simp [h1, htail, List.isEmpty_iff]), htw, hdw]

/-- The token regex matches exactly one punctuation character. -/
theorem matchAt_punct {prev : Option Char} {c : Char} {tail : Str}
    (hc : c = '=' ∨ c = ';' ∨ c = lbraceChar ∨ c = rbraceChar) :
    matchAt prev (c :: tail) = some ([c], tail) := by
  rcases hc with rfl | rfl | rfl | rfl <;>
  · simp only [matchAt]
    rw [if_neg (by decide), if_neg (by decide), if_pos (by decide)]

/-- The token regex matches exactly the `[]` span. -/
theorem matchAt_arr {prev : Option Char} {tail : Str} :
    matchAt prev ('[' :: ']' :: tail) = some (['[', ']'], tail) := by
  simp only [matchAt]
  rw [if_neg (by decide), if_neg (by decide), if_neg (by decide), if_pos trivial]
  simp only [matchBracket]
  rw [if_neg (by rw [List.takeWhile_cons, if_neg (by decide)]; simp), if_pos (by simp)]
  rfl

/-- The token regex matches exactly a `[digits]` span. -/
theorem matchAt_fixed {prev : Option Char} {ds tail : Str}
    (h1 : ds ≠ []) (h2 : ∀ c ∈ ds, isDigitC c = true) :
    matchAt prev ('[' :: (ds ++ ']' :: tail)) = some ('[' :: (ds ++ [']']), tail) := by
  have htw : (ds ++ ']' :: tail).takeWhile isDigitC = ds := by
    refine takeWhile_run h2 ?_
    rw [List.takeWhile_cons, if_neg (by decide)]
  have hdw : (ds ++ ']' :: tail).dropWhile isDigitC = ']' :: tail := by
    refine dropWhile_run h2 ?_
    rw [List.dropWhile_cons, if_neg (by decide)]
  simp only [matchAt]
  rw [if_neg (by decide), if_neg (by decide), if_neg (by decide), if_pos trivial]
  simp only [matchBracket]
  rw [if_pos (by rw [htw]; simp [h1, List.isEmpty_iff]), if_pos (by rw [hdw]; rfl)]
  rw [htw, hdw]
  rfl

/-- The token regex matches exactly the `[deprecated]` span. -/
theorem matchAt_depr {prev : Option Char} {tail : Str} :
    matchAt prev (('[' :: depChars) ++ tail) = some ('[' :: depChars, tail) := by
  show matchAt prev ('[' :: (depChars ++ tail)) = some ('[' :: depChars, tail)
  simp only [matchAt]
  rw [if_neg (by decide), if_neg (by decide), if_neg (by decide), if_pos trivial]
  simp only [matchBracket]
  rw [if_neg (by rw [show depChars ++ tail = 'd' :: ("eprecated]".toList ++ tail) from rfl,
        List.takeWhile_cons, if_neg (by decide)]; simp),
    if_neg (by simp [depChars]),
    if_pos (List.isPrefixOf_iff_prefix.mpr (List.prefix_append depChars tail))]
  rw [show depChars.length = 11 from rfl]
  rw [show (depChars ++ tail).drop 11 = tail from List.drop_left depChars tail]

/-- A space or newline falls through every earlier alternative of the
token regex and satisfies the whitespace class. -/
theorem space_or_nl_facts {c : Char} (h : c = ' ' ∨ c = '\n') :
    isSpaceC c = true ∧ c ≠ '-' ∧ isDigitC c = false ∧
    (c ≠ '=' ∧ c ≠ ';' ∧ c ≠ lbraceChar ∧ c ≠ rbraceChar) ∧
    c ≠ '[' ∧ (isAlphaC c || decide (c = '_')) = false ∧ c ≠ '/' := by
  rcases h with rfl | rfl <;> exact ⟨by decide, by decide, by decide,
    ⟨by decide, by decide, by decide, by decide⟩, by decide, by decide, by decide⟩

/-- The token regex matches exactly a maximal run of spaces and
newlines when the following character is not whitespace. -/
theorem matchAt_ws {prev : Option Char} {sp tail : Str}
    (h1 : sp ≠ []) (h2 : ∀ c ∈ sp, c = ' ' ∨ c = '\n')
    (htail : headNotSpace tail = true) :
    matchAt prev (sp ++ tail) = some (sp, tail) := by
  have hsall : ∀ c ∈ sp, isSpaceC c = true := fun c hc => (space_or_nl_facts (h2 c hc)).1
  have htwt : tail.takeWhile isSpaceC = [] := by
    refine takeWhile_head_false ?_
    intro x t hxt
    subst hxt
    simpa only [headNotSpace, Bool.not_eq_true'] using htail
  have hdwt : tail.dropWhile isSpaceC = tail := by
    refine dropWhile_head_false ?_
    intro x t hxt
    subst hxt
    simpa only [headNotSpace, Bool.not_eq_true'] using htail
  have htw : (sp ++ tail).takeWhile isSpaceC = sp := takeWhile_run hsall htwt
  have hdw : (sp ++ tail).dropWhile isSpaceC = tail := dropWhile_run hsall hdwt
  cases sp with
  | nil => exact absurd rfl h1
  | cons c r =>
    obtain ⟨hcs, hcm, hcd, ⟨hq1, hq2, hq3, hq4⟩, hbr, hai, hsl⟩ :=
      space_or_nl_facts (h2 c (List.mem_cons_self c r))
    show matchAt prev (c :: (r ++ tail)) = some (c :: r, tail)
    simp only [matchAt]
    rw [if_neg hcm, if_neg (by simp [hcd]), if_neg (by simp [hq1, hq2, hq3, hq4]),
      if_neg hbr, if_neg (by simp only [hai]; simp), if_neg hsl, if_pos hcs,
      show c :: (r ++ tail) = (c :: r) ++ tail from rfl, htw, hdw]

/-- Extending a scan chain by one exactly-matched span. -/
theorem scanChain_cons {prev : Option Char} {sp : Str} {spans : List Str} {rest : Str}
    (h : matchAt prev (sp ++ (spans.flatten ++ rest)) = some (sp, spans.flatten ++ rest))
    (hs : ScanChain (lastOr sp prev) spans rest) :
    ScanChain prev (sp :: spans) rest := ⟨h, hs⟩

/-- A single exactly-matched span forms a scan chain. -/
theorem scanChain_single {prev : Option Char} {sp rest : Str}
    (h : matchAt prev (sp ++ rest) = some (sp, rest)) :
    ScanChain prev [sp] rest := by
  refine ⟨?_, trivial⟩
  simpa using h

/-- The scan context after a concatenation of span lists. -/
theorem chainPrev_append (prev : Option Char) (s1 s2 : List Str) :
    chainPrev prev (s1 ++ s2) = chainPrev (chainPrev prev s1) s2 := by
  unfold chainPrev
  rw [List.foldl_append]

/-- Scan chains compose over concatenation of span lists. -/
theorem scanChain_append {prev : Option Char} {s1 s2 : List Str} {rest : Str}
    (h1 : ScanChain prev s1 (s2.flatten ++ rest))
    (h2 : ScanChain (chainPrev prev s1) s2 rest) :
    ScanChain prev (s1 ++ s2) rest := by
  induction s1 generalizing prev with
  | nil => simpa [chainPrev] using h2
  | cons sp s1' ih =>
    obtain ⟨hm, hrest⟩ := h1
    refine ⟨?_, ?_⟩
    · simpa [List.flatten_append, List.append_assoc] using hm
    · refine ih hrest ?_
      have : chainPrev prev (sp :: s1') = chainPrev (lastOr sp prev) s1' := by
        simp [chainPrev, List.foldl_cons]
      rw [← this]
      exact h2

/-- A scan chain yields a derivation of the scanner relation over the
concatenated text. -/
theorem scan_of_chain {prev : Option Char} {spans : List Str} {rest : Str}
    (h : ScanChain prev spans rest) :
    Scan prev (spans.flatten ++ rest) spans rest := by
  induction spans generalizing prev with
  | nil => simpa using Scan.done prev rest
  | cons sp spans' ih =>
    obtain ⟨hm, hrest⟩ := h
    rw [List.flatten_cons, List.append_assoc]
    exact Scan.step hm (ih hrest)

/-- A complete scan derivation determines the tokenizer loop's output:
the emitted tokens of the spans followed by the synthetic EOF token. -/
theorem tokenizeLoop_of_scan :
    ∀ {spans : List Str} {cs : Str} (pre : Str) (acc : List Token) (fuel : Nat),
      Scan pre.getLast? cs spans [] → spans.flatten = cs → cs.length < fuel →
      tokenizeLoop fuel pre.getLast? (refLine pre) (refCol pre) acc cs =
        .ok (acc ++ emitTokens pre spans ++
          [⟨[], refLine (pre ++ cs), refCol (pre ++ cs)⟩]) := by
  intro spans
  induction spans with
  | nil =>
    intro cs pre acc fuel hscan hflat hfuel
    cases hscan with
    | done =>
      cases fuel with
      | zero => omega
      | succ fuel =>
        have hf : findFrom pre.getLast? [] = none := rfl
        rw [tokenizeLoop_succ, hf]
        simp [emitTokens]
  | cons sp spans' ih =>
    intro cs pre acc fuel hscan hflat hfuel
    cases hscan with
    | @step _ _ _ r _ _ hm hrest =>
      obtain ⟨hsplit, hne⟩ := matchAt_sound hm
      cases fuel with
      | zero => omega
      | succ fuel =>
        have hf : findFrom pre.getLast? cs = some ([], sp, r) := by
          cases cs with
          | nil =>
            exfalso
            have : sp ++ r = [] := hsplit
            simp at this
            exact hne this.1
          | cons c rest0 =>
            rw [findFrom_cons, hm]
        have hflat' : spans'.flatten = r := by
          rw [List.flatten_cons] at hflat
          exact List.append_cancel_left (hflat.trans hsplit.symm)
        have hrlen : r.length < fuel := by
          have : sp.length + r.length = cs.length := by
            rw [← hsplit]; simp
          cases sp with
          | nil => exact absurd rfl hne
          | cons a t => simp at this; omega
        have hstep : tokenizeLoop (fuel + 1) pre.getLast? (refLine pre) (refCol pre) acc cs =
            tokenizeLoop fuel (pre ++ sp).getLast? (refLine (pre ++ sp)) (refCol (pre ++ sp))
              (if isWsOrComment sp then acc else acc ++ [⟨sp, refLine pre, refCol pre⟩]) r := by
          rw [tokenizeLoop_succ, hf]
          show tokenizeLoop fuel (lastOr sp pre.getLast?)
              (advancePos (refLine pre) (refCol pre) sp).1
              (advancePos (refLine pre) (refCol pre) sp).2
              (if isWsOrComment sp then acc else acc ++ [⟨sp, refLine pre, refCol pre⟩]) r =
            tokenizeLoop fuel (pre ++ sp).getLast? (refLine (pre ++ sp)) (refCol (pre ++ sp))
              (if isWsOrComment sp then acc else acc ++ [⟨sp, refLine pre, refCol pre⟩]) r
          rw [advancePos_ref, lastOr_ref pre hne]
        rw [hstep]
        have hrscan : Scan (pre ++ sp).getLast? r spans' [] := by
          rw [lastOr_ref pre hne] at hrest
          exact hrest
        rw [ih (pre ++ sp) _ fuel hrscan hflat' hrlen]
        have hpre : (pre ++ sp) ++ r = pre ++ cs := by
          rw [List.append_assoc, hsplit]
        rw [hpre]
        by_cases hws : isWsOrComment sp <;>
          simp [emitTokens, hws, List.append_assoc]

/-- A complete scan of the whole text determines `tokenize_schema`. -/
theorem tokenize_of_scan {text : Str} {spans : List Str}
    (hscan : Scan none text spans []) (hflat : spans.flatten = text) :
    tokenize_schema text =
      .ok (emitTokens [] spans ++ [⟨[], refLine text, refCol text⟩]) := by
  have hdef : tokenize_schema text =
      tokenizeLoop (text.length + 1) (List.getLast? []) (refLine []) (refCol []) [] text := rfl
  rw [hdef, tokenizeLoop_of_scan [] [] (text.length + 1) (by simpa using hscan) hflat
    (by omega)]
  simp

/-- The emitted token texts are exactly the non-whitespace spans. -/
theorem emitTokens_texts :
    ∀ (spans : List Str) (pre : Str),
      (emitTokens pre spans).map Token.text = nonWs spans := by
  intro spans
  induction spans with
  | nil => intro pre; rfl
  | cons sp spans' ih =>
    intro pre
    simp only [emitTokens, nonWs, List.filter_cons]
    have hr := ih (pre ++ sp)
    simp only [nonWs] at hr
    by_cases hws : isWsOrComment sp
    · simp [hws, hr]
    · have hb : isWsOrComment sp = false := by
        revert hws; cases isWsOrComment sp <;> simp
      simp [hb, hr]

/-- A span is kept by the tokenizer when its head is neither
whitespace nor a slash. -/
theorem isWsOrComment_head_false {c : Char} {r : Str}
    (h1 : isSpaceC c = false) (h2 : c ≠ '/') : isWsOrComment (c :: r) = false := by
  unfold isWsOrComment
  have hall : (c :: r).all isSpaceC = false := by
    simp [List.all_cons, h1]
  rw [hall]
  simp only [Bool.and_false, Bool.false_or]
  split
  · next heq => exact absurd (List.cons.inj heq).1 h2
  · rfl

/-- A nonempty all-whitespace span is dropped by the tokenizer. -/
theorem isWsOrComment_space {sp : Str} (h1 : sp ≠ [])
    (h2 : ∀ c ∈ sp, isSpaceC c = true) : isWsOrComment sp = true := by
  unfold isWsOrComment
  have hb : (!sp.isEmpty && sp.all isSpaceC) = true := by
    simp [List.isEmpty_iff, h1, List.all_eq_true.mpr h2]
  simp [hb]

/-- An identifier span is kept by the tokenizer. -/
theorem isWsOrComment_ident {s : Str} (h : isIdentText s = true) :
    isWsOrComment s = false := by
  obtain ⟨c, r, rfl, hc⟩ := isIdentText_head h
  obtain ⟨_, _, _, _, hsl, hword⟩ := identHead_facts hc
  exact isWsOrComment_head_false (word_not_space hword) hsl

/-- A digit is neither whitespace nor a slash. -/
theorem digit_facts {c : Char} (h : isDigitC c = true) :
    isSpaceC c = false ∧ c ≠ '/' := by
  refine ⟨digit_not_space h, ?_⟩
  intro hcon
  rw [hcon] at h
  exact Bool.noConfusion h

/-- A rendered integer span is kept by the tokenizer. -/
theorem isWsOrComment_renderInt (v : Int) : isWsOrComment (renderInt v) = false := by
  obtain ⟨c, r, hcr, hc⟩ := renderInt_head v
  rw [hcr]
  rcases hc with rfl | hd
  · exact isWsOrComment_head_false (by decide) (by decide)
  · obtain ⟨h1, h2⟩ := digit_facts hd
    exact isWsOrComment_head_false h1 h2

/-- The concatenated array-suffix texts equal the formatter's suffix. -/
theorem arrTexts_flatten (f : Field) :
    (arrTexts f).flatten =
      (if f.is_array then
        match f.array_size with
        | some n => '[' :: (renderNat n ++ [']'])
        | none => ['[', ']']
       else []) := by
  unfold arrTexts
  by_cases h : f.is_array
  · rw [if_pos h, if_pos h]
    cases f.array_size <;> simp
  · rw [if_neg h, if_neg h]
    rfl

/-- The typed-field rendering in terms of the array-suffix texts. -/
theorem format_typed_field_eq {f : Field} {t : Str} (ht : f.type_ = some t) :
    format_typed_field f = t ++ ((arrTexts f).flatten ++ (' ' :: f.name)) := by
  unfold format_typed_field arrTexts
  rw [ht]
  by_cases ha : f.is_array
  · cases hs : f.array_size <;> simp [ha, hs]
  · simp [ha]

/-- A formatted field line is the two-space indent, the field's spans
and the closing `;\n`. -/
theorem fieldSpans_flatten {kind : DefinitionKind} {f : Field} (hwf : WFField kind f) :
    format_field kind f = ' ' :: ' ' :: ((fieldSpans kind f).flatten ++ [';', '\n']) := by
  obtain ⟨hname, hk⟩ := hwf
  cases kind with
  | Enum =>
    simp [format_field, fieldSpans]
  | Struct =>
    obtain ⟨⟨t, ht, hit⟩, hdep, harr⟩ := hk
    simp [format_field, fieldSpans, format_typed_field_eq ht, ht]
  | Message =>
    obtain ⟨⟨t, ht, hit⟩, hlo, hhi, harr⟩ := hk
    by_cases hd : f.is_deprecated
    · simp [format_field, fieldSpans, format_typed_field_eq ht, ht, hd, depChars]
    · simp [format_field, fieldSpans, format_typed_field_eq ht, ht, hd]

/-- The concatenated spans of a definition body reproduce the
formatted field lines and the closing brace. -/
theorem fieldsRegion_flatten {kind : DefinitionKind} :
    ∀ {fs : List Field}, (∀ f ∈ fs, WFField kind f) →
      (fieldsRegion kind fs).flatten =
        '\n' :: ((fs.map (format_field kind)).flatten ++ [rbraceChar]) := by
  intro fs
  induction fs with
  | nil => intro _; simp [fieldsRegion]
  | cons f fs ih =>
    intro hwf
    have hfs := ih (fun g hg => hwf g (List.mem_cons_of_mem f hg))
    have hf := fieldSpans_flatten (hwf f (List.mem_cons_self f fs))
    simp only [fieldsRegion, List.flatten_cons, List.flatten_append, hfs,
      List.map_cons, hf]
    simp

/-- The concatenated spans of a definition reproduce its formatted
text up to the trailing newline. -/
theorem defSpans_flatten {d : Definition} (hwf : WFDef d) :
    (defSpans d).flatten ++ ['\n'] = format_definition d := by
  obtain ⟨hname, hfields⟩ := hwf
  simp only [defSpans, format_definition, List.flatten_append,
    fieldsRegion_flatten hfields]
  simp

/-- The formatter separates consecutive definitions by a blank line. -/
theorem formatDefs_cons_cons (d d2 : Definition) (ds : List Definition) :
    formatDefs (d :: d2 :: ds) =
      format_definition d ++ ('\n' :: formatDefs (d2 :: ds)) := by
  simp only [formatDefs, List.map_cons, List.flatten_cons]
  simp

/-- The concatenated spans of a definition list reproduce the
formatted definitions. -/
theorem defsSpans_flatten :
    ∀ {ds : List Definition}, (∀ d ∈ ds, WFDef d) →
      (defsSpans ds).flatten = formatDefs ds := by
  intro ds
  induction ds with
  | nil => intro _; rfl
  | cons d ds ih =>
    intro hwf
    have hd := defSpans_flatten (hwf d (List.mem_cons_self d ds))
    cases ds with
    | nil =>
      show (defSpans d ++ [['\n']]).flatten = formatDefs [d]
      rw [List.flatten_append]
      simp only [formatDefs, List.map_nil, List.flatten_nil, List.append_nil]
      rw [← hd]
      simp
    | cons d2 ds2 =>
      have hds := ih (fun g hg => hwf g (List.mem_cons_of_mem d hg))
      show (defSpans d ++ [['\n', '\n']] ++ defsSpans (d2 :: ds2)).flatten =
        formatDefs (d :: d2 :: ds2)
      rw [formatDefs_cons_cons, List.flatten_append, List.flatten_append, hds, ← hd]
      simp

/-- The canonical spans tile the formatted schema exactly. -/
theorem schemaSpans_flatten {s : Schema} (hwf : WFSchema s) :
    (schemaSpans s).flatten = format_schema s := by
  obtain ⟨hpkg, hdefs⟩ := hwf
  have hds := defsSpans_flatten hdefs
  unfold schemaSpans format_schema
  cases hp : s.package with
  | none => simpa using hds
  | some pkg =>
    by_cases he : s.definitions.isEmpty
    · simp [he, hds]
    · have hb : s.definitions.isEmpty = false := by
        revert he; cases s.definitions.isEmpty <;> simp
      simp [hb, hds]

/-- An identifier does not start with whitespace. -/
theorem headNotSpace_ident {s : Str} (h : isIdentText s = true) (tail : Str) :
    headNotSpace (s ++ tail) = true := by
  obtain ⟨c, r, rfl, hc⟩ := isIdentText_head h
  have he : headNotSpace (c :: (r ++ tail)) = !isSpaceC c := rfl
  show headNotSpace (c :: (r ++ tail)) = true
  rw [he, word_not_space (identHead_facts hc).2.2.2.2.2]
  rfl

/-- An identifier does not start with whitespace (reassociated form). -/
theorem headNotSpace_ident2 {s : Str} (h : isIdentText s = true) (a b : Str) :
    headNotSpace ((s ++ a) ++ b) = true := by
  rw [List.append_assoc]
  exact headNotSpace_ident h (a ++ b)

/-- A rendered integer does not start with whitespace. -/
theorem headNotSpace_renderInt (v : Int) (tail : Str) :
    headNotSpace (renderInt v ++ tail) = true := by
  obtain ⟨c, r, hcr, hc⟩ := renderInt_head v
  rw [hcr]
  have he : headNotSpace (c :: (r ++ tail)) = !isSpaceC c := rfl
  show headNotSpace (c :: (r ++ tail)) = true
  rw [he]
  rcases hc with rfl | hd
  · rfl
  · rw [digit_not_space hd]
    rfl

/-- A rendered integer does not start with whitespace (reassociated
form). -/
theorem headNotSpace_renderInt2 (v : Int) (a b : Str) :
    headNotSpace ((renderInt v ++ a) ++ b) = true := by
  rw [List.append_assoc]
  exact headNotSpace_renderInt v (a ++ b)

/-- The token regex matches exactly a rendered-integer span at a word
boundary with a non-word character behind it. -/
theorem matchAt_renderInt {prev : Option Char} {v : Int} {tail : Str}
    (hprev : wordBoundaryAt prev = true) (htail : headNotWord tail = true) :
    matchAt prev (renderInt v ++ tail) = some (renderInt v, tail) := by
  by_cases h : v < 0
  · rw [renderInt_neg h]
    exact matchAt_neg (renderNat_shape v.natAbs).1
      (fun c hc => (renderNat_shape v.natAbs).2 c hc) htail
  · rw [renderInt_nonneg (by omega)]
    exact matchAt_digits (renderNat_shape v.toNat).1
      (fun c hc => (renderNat_shape v.toNat).2 c hc) hprev htail

/-- The spans of a formatted enum field chain at their own positions. -/
theorem chain_fieldSpans_enum {f : Field} (hwf : WFField DefinitionKind.Enum f)
    {prev : Option Char} (hprev : wordBoundaryAt prev = true) (rest' : Str) :
    ScanChain prev (fieldSpans DefinitionKind.Enum f) (';' :: rest') := by
  obtain ⟨hname, hk⟩ := hwf
  show ScanChain prev [f.name, [' '], ['='], [' '], renderInt f.field_id] (';' :: rest')
  refine scanChain_cons ?_ (scanChain_cons ?_ (scanChain_cons ?_ (scanChain_cons ?_
    (scanChain_single ?_))))
  · exact matchAt_ident hname hprev (by rfl)
  · exact matchAt_ws (by simp) (by decide) (by rfl)
  · exact matchAt_punct (Or.inl rfl)
  · exact matchAt_ws (by simp) (by decide) (headNotSpace_renderInt2 f.field_id [] _)
  · exact matchAt_renderInt (by rfl) (by rfl)

/-- The space-and-name spans of a struct field chain at their own
positions. -/
theorem chain_space_name {name : Str} (hname : isIdentText name = true)
    (prev : Option Char) (rest' : Str) :
    ScanChain prev [[' '], name] (';' :: rest') := by
  refine scanChain_cons ?_ (scanChain_single ?_)
  · exact matchAt_ws (by simp) (by decide) (headNotSpace_ident2 hname [] _)
  · exact matchAt_ident hname (by rfl) (by rfl)

/-- The spans after a message field's type chain at their own
positions, with and without the deprecation marker. -/
theorem chain_space_name_eq_val {name : Str} (hname : isIdentText name = true)
    (v : Int) (dep : Bool) (prev : Option Char) (rest' : Str) :
    ScanChain prev
      ([[' '], name, [' '], ['='], [' '], renderInt v] ++
        (if dep then [[' '], ('[' :: depChars)] else [])) (';' :: rest') := by
  by_cases hd : dep
  · rw [if_pos hd]
    show ScanChain prev
      [[' '], name, [' '], ['='], [' '], renderInt v, [' '], ('[' :: depChars)]
      (';' :: rest')
    refine scanChain_cons ?_ (scanChain_cons ?_ (scanChain_cons ?_ (scanChain_cons ?_
      (scanChain_cons ?_ (scanChain_cons ?_ (scanChain_cons ?_ (scanChain_single ?_)))))))
    · exact matchAt_ws (by simp) (by decide) (headNotSpace_ident2 hname _ _)
    · exact matchAt_ident hname (by rfl) (by rfl)
    · exact matchAt_ws (by simp) (by decide) (by rfl)
    · exact matchAt_punct (Or.inl rfl)
    · exact matchAt_ws (by simp) (by decide) (headNotSpace_renderInt2 v _ _)
    · exact matchAt_renderInt (by rfl) (by rfl)
    · exact matchAt_ws (by simp) (by decide) (by rfl)
    · exact matchAt_depr
  · rw [if_neg hd]
    show ScanChain prev [[' '], name, [' '], ['='], [' '], renderInt v] (';' :: rest')
    refine scanChain_cons ?_ (scanChain_cons ?_ (scanChain_cons ?_ (scanChain_cons ?_
      (scanChain_cons ?_ (scanChain_single ?_)))))
    · exact matchAt_ws (by simp) (by decide) (headNotSpace_ident2 hname _ _)
    · exact matchAt_ident hname (by rfl) (by rfl)
    · exact matchAt_ws (by simp) (by decide) (by rfl)
    · exact matchAt_punct (Or.inl rfl)
    · exact matchAt_ws (by simp) (by decide) (headNotSpace_renderInt2 v _ _)
    · exact matchAt_renderInt (by rfl) (by rfl)

/-- The spans of any well-formed formatted field chain at their own
positions. -/
theorem chain_fieldSpans {kind : DefinitionKind} {f : Field} (hwf : WFField kind f)
    {prev : Option Char} (hprev : wordBoundaryAt prev = true) (rest' : Str) :
    ScanChain prev (fieldSpans kind f) (';' :: rest') := by
  obtain ⟨hname, hk⟩ := hwf
  cases kind with
  | Enum => exact chain_fieldSpans_enum ⟨hname, hk⟩ hprev rest'
  | Struct =>
    obtain ⟨⟨t, ht, hit⟩, hdep, harr⟩ := hk
    show ScanChain prev (f.type_.getD [] :: (arrTexts f ++ [[' '], f.name])) (';' :: rest')
    rw [ht]
    unfold arrTexts
    by_cases ha : f.is_array
    · rw [if_pos ha]
      cases hs : f.array_size with
      | none =>
        refine scanChain_cons ?_ (scanChain_cons ?_ (chain_space_name hname _ _))
        · exact matchAt_ident hit hprev (by rfl)
        · exact matchAt_arr
      | some n =>
        refine scanChain_cons ?_ (scanChain_cons ?_ (chain_space_name hname _ _))
        · exact matchAt_ident hit hprev (by rfl)
        · simpa [List.append_assoc] using
            @matchAt_fixed _ (renderNat n)
              (List.flatten [[' '], f.name] ++ (';' :: rest'))
              (renderNat_shape n).1 (fun c hc => (renderNat_shape n).2 c hc)
    · rw [if_neg ha]
      refine scanChain_cons ?_ (chain_space_name hname _ _)
      · exact matchAt_ident hit hprev (by rfl)
  | Message =>
    obtain ⟨⟨t, ht, hit⟩, hlo, hhi, harr⟩ := hk
    show ScanChain prev
      (f.type_.getD [] ::
        (arrTexts f ++ [[' '], f.name, [' '], ['='], [' '], renderInt f.field_id] ++
         (if f.is_deprecated then [[' '], ('[' :: depChars)] else []))) (';' :: rest')
    rw [ht]
    unfold arrTexts
    by_cases ha : f.is_array
    · rw [if_pos ha]
      cases hs : f.array_size with
      | none =>
        refine scanChain_cons ?_ (scanChain_cons ?_ ?_)
        · exact matchAt_ident hit hprev (by rfl)
        · exact matchAt_arr
        · exact chain_space_name_eq_val hname f.field_id f.is_deprecated _ _
      | some n =>
        refine scanChain_cons ?_ (scanChain_cons ?_ ?_)
        · exact matchAt_ident hit hprev (by rfl)
        · simpa [List.append_assoc] using
            @matchAt_fixed _ (renderNat n)
              (List.flatten ([[' '], f.name, [' '], ['='], [' '], renderInt f.field_id] ++
                (if f.is_deprecated then [[' '], ('[' :: depChars)] else [])) ++
                (';' :: rest'))
              (renderNat_shape n).1 (fun c hc => (renderNat_shape n).2 c hc)
        · exact chain_space_name_eq_val hname f.field_id f.is_deprecated _ _
    · rw [if_neg ha]
      refine scanChain_cons ?_ ?_
      · exact matchAt_ident hit hprev (by rfl)
      · exact chain_space_name_eq_val hname f.field_id f.is_deprecated _ _

/-- A field's first span is an identifier. -/
theorem fieldSpans_head_ident {kind : DefinitionKind} {f : Field} (hwf : WFField kind f) :
    ∃ s spans', fieldSpans kind f = s :: spans' ∧ isIdentText s = true := by
  obtain ⟨hname, hk⟩ := hwf
  cases kind with
  | Enum => exact ⟨f.name, _, rfl, hname⟩
  | Struct =>
    obtain ⟨⟨t, ht, hit⟩, _, _⟩ := hk
    refine ⟨f.type_.getD [], _, rfl, ?_⟩
    rw [ht]
    exact hit
  | Message =>
    obtain ⟨⟨t, ht, hit⟩, _, _, _⟩ := hk
    refine ⟨f.type_.getD [], _, rfl, ?_⟩
    rw [ht]
    exact hit

/-- The text of a field's spans does not start with whitespace. -/
theorem headNotSpace_spans {kind : DefinitionKind} {f : Field} (hwf : WFField kind f)
    (X : List Str) (R : Str) :
    headNotSpace ((fieldSpans kind f ++ X).flatten ++ R) = true := by
  obtain ⟨s, spans', heq, hs⟩ := fieldSpans_head_ident hwf
  rw [heq]
  have h2 : ((s :: spans') ++ X).flatten ++ R = s ++ ((spans' ++ X).flatten ++ R) := by
    simp
  rw [h2]
  exact headNotSpace_ident hs _

/-- The spans of a formatted definition body chain at their own
positions. -/
theorem chain_fieldsRegion {kind : DefinitionKind} :
    ∀ {fs : List Field}, (∀ f ∈ fs, WFField kind f) →
      ∀ (prev : Option Char) (rest' : Str), ScanChain prev (fieldsRegion kind fs) rest' := by
  intro fs
  induction fs with
  | nil =>
    intro _ prev rest'
    show ScanChain prev [['\n'], [rbraceChar]] rest'
    refine scanChain_cons ?_ (scanChain_single ?_)
    · exact matchAt_ws (by simp) (by decide) (by rfl)
    · exact matchAt_punct (Or.inr (Or.inr (Or.inr rfl)))
  | cons f fs ih =>
    intro hwf prev rest'
    show ScanChain prev
      (('\n' :: "  ".toList) :: (fieldSpans kind f ++ [[';']] ++ fieldsRegion kind fs))
      rest'
    rw [List.append_assoc]
    refine scanChain_cons ?_ ?_
    · refine matchAt_ws (by simp) (by decide) ?_
      exact headNotSpace_spans (hwf f (List.mem_cons_self f fs)) _ _
    · refine scanChain_append ?_ ?_
      · exact chain_fieldSpans (hwf f (List.mem_cons_self f fs)) (by rfl)
          ((fieldsRegion kind fs).flatten ++ rest')
      · show ScanChain _ ([[';']] ++ fieldsRegion kind fs) rest'
        simp only [List.cons_append, List.nil_append]
        refine scanChain_cons ?_ ?_
        · exact matchAt_punct (Or.inr (Or.inl rfl))
        · exact ih (fun g hg => hwf g (List.mem_cons_of_mem f hg)) _ _

/-- Definition keywords are identifiers. -/
theorem kindKeyword_ident (kind : DefinitionKind) :
    isIdentText (kindKeyword kind) = true := by
  cases kind <;> decide

/-- The spans of a formatted definition chain at their own positions. -/
theorem chain_defSpans {d : Definition} (hwf : WFDef d) {prev : Option Char}
    (hprev : wordBoundaryAt prev = true) (rest' : Str) :
    ScanChain prev (defSpans d) rest' := by
  obtain ⟨hname, hfields⟩ := hwf
  show ScanChain prev
    ([kindKeyword d.kind, [' '], d.name, [' '], [lbraceChar]] ++ fieldsRegion d.kind d.fields)
    rest'
  refine scanChain_append ?_ ?_
  · refine scanChain_cons ?_ (scanChain_cons ?_ (scanChain_cons ?_ (scanChain_cons ?_
      (scanChain_single ?_))))
    · exact matchAt_ident (kindKeyword_ident d.kind) hprev (by rfl)
    · exact matchAt_ws (by simp) (by decide) (headNotSpace_ident2 hname _ _)
    · exact matchAt_ident hname (by rfl) (by rfl)
    · exact matchAt_ws (by simp) (by decide) (by rfl)
    · exact matchAt_punct (Or.inr (Or.inr (Or.inl rfl)))
  · exact chain_fieldsRegion hfields _ _

/-- A formatted definition list does not start with whitespace. -/
theorem headNotSpace_defsSpans (d2 : Definition) (ds2 : List Definition) (R : Str) :
    headNotSpace ((defsSpans (d2 :: ds2)).flatten ++ R) = true := by
  obtain ⟨X, hX⟩ : ∃ X, defsSpans (d2 :: ds2) = defSpans d2 ++ X := by
    cases ds2 with
    | nil => exact ⟨[['\n']], rfl⟩
    | cons d3 ds3 =>
      refine ⟨[['\n', '\n']] ++ defsSpans (d3 :: ds3), ?_⟩
      rw [show defsSpans (d2 :: d3 :: ds3) =
        defSpans d2 ++ [['\n', '\n']] ++ defsSpans (d3 :: ds3) from rfl, List.append_assoc]
  rw [hX]
  have h2 : ((defSpans d2) ++ X).flatten ++ R =
      kindKeyword d2.kind ++
        (([[' '], d2.name, [' '], [lbraceChar]] ++ fieldsRegion d2.kind d2.fields ++ X).flatten
          ++ R) := by
    show (([kindKeyword d2.kind, [' '], d2.name, [' '], [lbraceChar]] ++
      fieldsRegion d2.kind d2.fields) ++ X).flatten ++ R = _
    simp
  rw [h2]
  exact headNotSpace_ident (kindKeyword_ident d2.kind) _

/-- The spans of a formatted definition list chain at their own
positions. -/
theorem chain_defsSpans :
    ∀ {ds : List Definition}, (∀ d ∈ ds, WFDef d) →
      ∀ {prev : Option Char}, wordBoundaryAt prev = true →
        ScanChain prev (defsSpans ds) [] := by
  intro ds
  induction ds with
  | nil => intro _ prev _; exact trivial
  | cons d ds ih =>
    intro hwf prev hprev
    cases ds with
    | nil =>
      show ScanChain prev (defSpans d ++ [['\n']]) []
      refine scanChain_append ?_ ?_
      · exact chain_defSpans (hwf d (List.mem_cons_self d [])) hprev _
      · exact scanChain_single (matchAt_ws (by simp) (by decide) (by rfl))
    | cons d2 ds2 =>
      show ScanChain prev (defSpans d ++ [['\n', '\n']] ++ defsSpans (d2 :: ds2)) []
      rw [List.append_assoc]
      refine scanChain_append ?_ ?_
      · exact chain_defSpans (hwf d (List.mem_cons_self d (d2 :: ds2))) hprev _
      · show ScanChain _ ([['\n', '\n']] ++ defsSpans (d2 :: ds2)) []
        simp only [List.cons_append, List.nil_append]
        refine scanChain_cons ?_ ?_
        · refine matchAt_ws (by simp) (by decide) ?_
          have h2 : (defsSpans (d2 :: ds2)).flatten ++ ([] : Str) =
              (defsSpans (d2 :: ds2)).flatten ++ ([] : Str) := rfl
          exact headNotSpace_defsSpans d2 ds2 []
        · exact ih (fun g hg => hwf g (List.mem_cons_of_mem d hg)) (by rfl)

/-- The canonical spans of a formatted schema chain from the start of
the text. -/
theorem chain_schemaSpans {s : Schema} (hwf : WFSchema s) :
    ScanChain none (schemaSpans s) [] := by
  obtain ⟨hpkg, hdefs⟩ := hwf
  unfold schemaSpans
  cases hp : s.package with
  | none =>
    show ScanChain none ([] ++ defsSpans s.definitions) []
    rw [List.nil_append]
    exact chain_defsSpans hdefs (by rfl)
  | some pkg =>
    have hpi := hpkg pkg hp
    show ScanChain none
      ((["package".toList, [' '], pkg, [';']] ++
        (if s.definitions.isEmpty then [['\n']] else [['\n', '\n']])) ++
        defsSpans s.definitions) []
    rw [List.append_assoc]
    refine scanChain_append ?_ ?_
    · refine scanChain_cons ?_ (scanChain_cons ?_ (scanChain_cons ?_ (scanChain_single ?_)))
      · exact matchAt_ident (by decide) (by rfl) (by rfl)
      · exact matchAt_ws (by simp) (by decide) (headNotSpace_ident2 hpi _ _)
      · exact matchAt_ident hpi (by rfl) (by rfl)
      · exact matchAt_punct (Or.inr (Or.inl rfl))
    · by_cases he : s.definitions.isEmpty
      · rw [if_pos he]
        have hd0 : s.definitions = [] := by simpa [List.isEmpty_iff] using he
        rw [hd0]
        show ScanChain _ ([['\n']] ++ defsSpans []) []
        exact scanChain_single (matchAt_ws (by simp) (by decide) (by rfl))
      · rw [if_neg he]
        cases hd : s.definitions with
        | nil => rw [hd] at he; simp at he
        | cons d2 ds2 =>
          show ScanChain _ ([['\n', '\n']] ++ defsSpans (d2 :: ds2)) []
          simp only [List.cons_append, List.nil_append]
          refine scanChain_cons ?_ ?_
          · refine matchAt_ws (by simp) (by decide) ?_
            exact headNotSpace_defsSpans d2 ds2 []
          · refine chain_defsSpans ?_ (by rfl)
            intro g hg
            first
              | exact hdefs g hg
              | exact hdefs g (by rw [hd]; exact hg)

/-- The kept spans distribute over concatenation. -/
theorem nonWs_append (A B : List Str) : nonWs (A ++ B) = nonWs A ++ nonWs B := by
  unfold nonWs
  rw [List.filter_append]

/-- A kept head span stays in front. -/
theorem nonWs_cons_keep {sp : Str} (h : isWsOrComment sp = false) (spans : List Str) :
    nonWs (sp :: spans) = sp :: nonWs spans := by
  unfold nonWs
  rw [List.filter_cons]
  simp [h]

/-- A dropped head span disappears. -/
theorem nonWs_cons_drop {sp : Str} (h : isWsOrComment sp = true) (spans : List Str) :
    nonWs (sp :: spans) = nonWs spans := by
  unfold nonWs
  rw [List.filter_cons]
  simp [h]

/-- Array-suffix spans are kept by the tokenizer. -/
theorem isWsOrComment_arr (f : Field) : ∀ sp ∈ arrTexts f, isWsOrComment sp = false := by
  unfold arrTexts
  by_cases ha : f.is_array
  · rw [if_pos ha]
    cases f.array_size with
    | none =>
      intro sp hsp
      rw [List.mem_singleton.mp hsp]
      decide
    | some n =>
      intro sp hsp
      rw [List.mem_singleton.mp hsp]
      exact isWsOrComment_head_false (by decide) (by decide)
  · rw [if_neg ha]
    intro sp hsp
    simp at hsp

/-- All array-suffix spans are kept. -/
theorem nonWs_arrTexts (f : Field) : nonWs (arrTexts f) = arrTexts f := by
  have h := isWsOrComment_arr f
  unfold nonWs
  rw [List.filter_eq_self.mpr]
  intro sp hsp
  simp [h sp hsp]

/-- The kept spans of a formatted field are its token texts. -/
theorem nonWs_fieldSpans {kind : DefinitionKind} {f : Field} (hwf : WFField kind f) :
    nonWs (fieldSpans kind f) = fieldTexts kind f := by
  obtain ⟨hname, hk⟩ := hwf
  have hn := isWsOrComment_ident hname
  cases kind with
  | Enum =>
    show nonWs [f.name, [' '], ['='], [' '], renderInt f.field_id] = _
    rw [nonWs_cons_keep hn, nonWs_cons_drop (by decide), nonWs_cons_keep (by decide),
      nonWs_cons_drop (by decide), nonWs_cons_keep (isWsOrComment_renderInt f.field_id)]
    rfl
  | Struct =>
    obtain ⟨⟨t, ht, hit⟩, _, _⟩ := hk
    have htt : isWsOrComment (f.type_.getD []) = false := by
      rw [ht]; exact isWsOrComment_ident hit
    show nonWs (f.type_.getD [] :: (arrTexts f ++ [[' '], f.name])) =
      f.type_.getD [] :: (arrTexts f ++ [f.name])
    rw [nonWs_cons_keep htt, nonWs_append, nonWs_arrTexts]
    rw [show nonWs [[' '], f.name] = [f.name] from by
      rw [nonWs_cons_drop (by decide), nonWs_cons_keep hn]; rfl]
  | Message =>
    obtain ⟨⟨t, ht, hit⟩, _, _, _⟩ := hk
    have htt : isWsOrComment (f.type_.getD []) = false := by
      rw [ht]; exact isWsOrComment_ident hit
    show nonWs (f.type_.getD [] ::
        (arrTexts f ++ [[' '], f.name, [' '], ['='], [' '], renderInt f.field_id] ++
         (if f.is_deprecated then [[' '], ('[' :: depChars)] else []))) =
      f.type_.getD [] :: (arrTexts f ++ [f.name, ['='], renderInt f.field_id] ++
        (if f.is_deprecated then [('[' :: depChars)] else []))
    rw [nonWs_cons_keep htt, nonWs_append, nonWs_append, nonWs_arrTexts]
    congr 1
    congr 1
    · rw [nonWs_cons_drop (by decide), nonWs_cons_keep hn, nonWs_cons_drop (by decide),
        nonWs_cons_keep (by decide), nonWs_cons_drop (by decide),
        nonWs_cons_keep (isWsOrComment_renderInt f.field_id)]
      rfl
    · by_cases hd : f.is_deprecated
      · rw [if_pos hd, if_pos hd, nonWs_cons_drop (by decide),
          nonWs_cons_keep (isWsOrComment_head_false (by decide) (by decide))]
        rfl
      · rw [if_neg hd, if_neg hd]
        rfl

/-- The kept spans of a definition body are its token texts plus the
closing brace. -/
theorem nonWs_fieldsRegion {kind : DefinitionKind} :
    ∀ {fs : List Field}, (∀ f ∈ fs, WFField kind f) →
      nonWs (fieldsRegion kind fs) = fieldsTexts kind fs ++ [[rbraceChar]] := by
  intro fs
  induction fs with
  | nil =>
    intro _
    show nonWs [['\n'], [rbraceChar]] = [] ++ [[rbraceChar]]
    rw [nonWs_cons_drop (by decide), nonWs_cons_keep (by decide)]
    rfl
  | cons f fs ih =>
    intro hwf
    show nonWs (('\n' :: "  ".toList) ::
        (fieldSpans kind f ++ [[';']] ++ fieldsRegion kind fs)) =
      (fieldTexts kind f ++ [[';']] ++ fieldsTexts kind fs) ++ [[rbraceChar]]
    rw [nonWs_cons_drop (by decide), nonWs_append, nonWs_append,
      nonWs_fieldSpans (hwf f (List.mem_cons_self f fs)),
      ih (fun g hg => hwf g (List.mem_cons_of_mem f hg)),
      show nonWs [[';']] = [[';']] from by rw [nonWs_cons_keep (by decide)]; rfl]
    simp

/-- The kept spans of a formatted definition are its token texts. -/
theorem nonWs_defSpans {d : Definition} (hwf : WFDef d) :
    nonWs (defSpans d) = defTexts d := by
  obtain ⟨hname, hfields⟩ := hwf
  have hkw : isWsOrComment (kindKeyword d.kind) = false := by
    cases d.kind <;> decide
  show nonWs ([kindKeyword d.kind, [' '], d.name, [' '], [lbraceChar]] ++
      fieldsRegion d.kind d.fields) =
    [kindKeyword d.kind, d.name, [lbraceChar]] ++ fieldsTexts d.kind d.fields ++ [[rbraceChar]]
  rw [nonWs_append, nonWs_fieldsRegion hfields,
    show nonWs [kindKeyword d.kind, [' '], d.name, [' '], [lbraceChar]] =
      [kindKeyword d.kind, d.name, [lbraceChar]] from by
      rw [nonWs_cons_keep hkw, nonWs_cons_drop (by decide),
        nonWs_cons_keep (isWsOrComment_ident hname), nonWs_cons_drop (by decide),
        nonWs_cons_keep (by decide)]
      rfl]
  simp

/-- The kept spans of a formatted definition list are its token texts. -/
theorem nonWs_defsSpans :
    ∀ {ds : List Definition}, (∀ d ∈ ds, WFDef d) →
      nonWs (defsSpans ds) = defsTexts ds := by
  intro ds
  induction ds with
  | nil => intro _; rfl
  | cons d ds ih =>
    intro hwf
    have hd := nonWs_defSpans (hwf d (List.mem_cons_self d ds))
    cases ds with
    | nil =>
      show nonWs (defSpans d ++ [['\n']]) = defTexts d ++ defsTexts []
      rw [nonWs_append, hd, nonWs_cons_drop (by decide)]
      rfl
    | cons d2 ds2 =>
      have hds := ih (fun g hg => hwf g (List.mem_cons_of_mem d hg))
      show nonWs (defSpans d ++ [['\n', '\n']] ++ defsSpans (d2 :: ds2)) =
        defTexts d ++ defsTexts (d2 :: ds2)
      rw [nonWs_append, nonWs_append, hd, hds, nonWs_cons_drop (by decide)]
      simp [nonWs]

/-- The kept spans of a formatted schema are its token texts. -/
theorem nonWs_schemaSpans {s : Schema} (hwf : WFSchema s) :
    nonWs (schemaSpans s) = schemaTexts s := by
  obtain ⟨hpkg, hdefs⟩ := hwf
  have hds := nonWs_defsSpans hdefs
  unfold schemaSpans schemaTexts
  cases hp : s.package with
  | none =>
    show nonWs ([] ++ defsSpans s.definitions) = [] ++ defsTexts s.definitions
    rw [List.nil_append, List.nil_append, hds]
  | some pkg =>
    have hpi := hpkg pkg hp
    rw [nonWs_append, nonWs_append, hds,
      show nonWs ["package".toList, [' '], pkg, [';']] = ["package".toList, pkg, [';']] from by
        rw [nonWs_cons_keep (by decide), nonWs_cons_drop (by decide),
          nonWs_cons_keep (isWsOrComment_ident hpi), nonWs_cons_keep (by decide)]
        rfl,
      show nonWs (if s.definitions.isEmpty then [['\n']] else [['\n', '\n']]) = [] from by
        by_cases he : s.definitions.isEmpty
        · rw [if_pos he, nonWs_cons_drop (by decide)]; rfl
        · rw [if_neg he, nonWs_cons_drop (by decide)]; rfl]
    simp

/-- Tokenizing a well-formed schema's formatted text succeeds with the
tokens emitted for the canonical spans. -/
theorem tokenize_format {s : Schema} (hwf : WFSchema s) :
    tokenize_schema (format_schema s) =
      .ok (emitTokens [] (schemaSpans s) ++
        [⟨[], refLine (format_schema s), refCol (format_schema s)⟩]) := by
  have hflat := schemaSpans_flatten hwf
  have hchain := chain_schemaSpans hwf
  have hscan : Scan none (format_schema s) (schemaSpans s) [] := by
    have h2 := scan_of_chain hchain
    rwa [List.append_nil, hflat] at h2
  exact tokenize_of_scan hscan hflat

/-- Tokenizing a well-formed schema's formatted text succeeds, and the
token texts are the canonical texts plus the EOF token. -/
theorem tokenize_format_texts {s : Schema} (hwf : WFSchema s) :
    ∃ toks, tokenize_schema (format_schema s) = .ok toks ∧
      toks.map Token.text = schemaTexts s ++ [[]] := by
  refine ⟨_, tokenize_format hwf, ?_⟩
  rw [List.map_append, emitTokens_texts, nonWs_schemaSpans hwf]
  rfl

/-- A successful `expect` consumed one matching token. -/
theorem expectT_ok {p : Str → Bool} {e : Str} {toks rest : List Token}
    (h : expectT p e toks = .ok rest) : ∃ t, toks = t :: rest ∧ p t.text = true := by
  cases toks with
  | nil => exact PResult.noConfusion h
  | cons t r =>
    by_cases hp : p t.text = true
    · refine ⟨t, ?_, hp⟩
      simp only [expectT, if_pos hp] at h
      rw [PResult.ok.inj h]
    · simp only [expectT, if_neg hp] at h
      exact PResult.noConfusion h

/-- A successful consuming `eat` consumed one matching token. -/
theorem eatT_true {p : Str → Bool} {toks rest : List Token}
    (h : eatT p toks = .ok (true, rest)) : ∃ t, toks = t :: rest ∧ p t.text = true := by
  cases toks with
  | nil => exact PResult.noConfusion h
  | cons t r =>
    by_cases hp : p t.text = true
    · refine ⟨t, ?_, hp⟩
      simp only [eatT, if_pos hp] at h
      have h2 := PResult.ok.inj h
      rw [(Prod.mk.inj h2).2]
    · simp only [eatT, if_neg hp] at h
      have h2 := PResult.ok.inj h
      exact absurd (Prod.mk.inj h2).1 (by simp)

/-- A non-consuming `eat` left the tokens unchanged. -/
theorem eatT_false {p : Str → Bool} {toks rest : List Token}
    (h : eatT p toks = .ok (false, rest)) : rest = toks := by
  cases toks with
  | nil => exact PResult.noConfusion h
  | cons t r =>
    by_cases hp : p t.text = true
    · simp only [eatT, if_pos hp] at h
      have h2 := PResult.ok.inj h
      exact absurd (Prod.mk.inj h2).1 (by simp)
    · simp only [eatT, if_neg hp] at h
      have h2 := PResult.ok.inj h
      exact ((Prod.mk.inj h2).2).symm

/-- A value accepted by the `i32` reader lies in the `i32` range. -/
theorem parseI32_range {t : Str} {v : Int} (h : parseI32 t = some v) :
    -(2 ^ 31) ≤ v ∧ v < 2 ^ 31 := by
  unfold parseI32 at h
  split at h
  · split_ifs at h with h1
    simp only [Bool.and_eq_true, decide_eq_true_eq] at h1
    have hv := Option.some.inj h
    omega
  · split_ifs at h with h1
    simp only [Bool.and_eq_true, decide_eq_true_eq] at h1
    have hv := Option.some.inj h
    omega

/-- A value accepted by the `usize` reader fits in 64 bits. -/
theorem parseUsize_lt {ds : Str} {n : Nat} (h : parseUsize ds = some n) : n < 2 ^ 64 := by
  unfold parseUsize at h
  split_ifs at h with h1
  simp only [Bool.and_eq_true, decide_eq_true_eq] at h1
  have := Option.some.inj h
  omega

/-- What the type-and-array step guarantees about its result. -/
theorem parseFieldTy_wf {kind : DefinitionKind} {toks : List Token}
    {ty : Option Str} {arr : Bool} {sz : Option Nat} {rest : List Token}
    (h : parseFieldTy kind toks = .ok ((ty, arr, sz), rest)) :
    (kind = DefinitionKind.Enum → ty = none ∧ arr = false ∧ sz = none) ∧
    (kind ≠ DefinitionKind.Enum → ∃ t, ty = some t ∧ isIdentText t = true) ∧
    (arr = false → sz = none) ∧ (∀ n, sz = some n → n < 2 ^ 64) := by
  by_cases hk : kind = DefinitionKind.Enum
  · subst hk
    simp only [parseFieldTy] at h
    obtain ⟨⟨ht, harr3, hsz⟩, hrest2⟩ :
        (none = ty ∧ false = arr ∧ none = sz) ∧ toks = rest := by
      simpa using h
    refine ⟨fun _ => ⟨ht.symm, harr3.symm, hsz.symm⟩, fun hne => absurd rfl hne,
      fun _ => hsz.symm, ?_⟩
    intro n hn
    rw [← hsz] at hn
    exact Option.noConfusion hn
  · cases toks with
    | nil =>
      rw [parseFieldTy, if_pos hk] at h
      exact PResult.noConfusion h
    | cons tTok r =>
      by_cases hident : isIdentText tTok.text = true
      · cases r with
        | nil =>
          simp [parseFieldTy, hk, expectT, hident] at h
        | cons nextTok r2 =>
          by_cases harr2 : isArrayText nextTok.text = true
          · obtain ⟨⟨ht, harr3, hsz⟩, hrest2⟩ :
                (some tTok.text = ty ∧ true = arr ∧ none = sz) ∧ r2 = rest := by
              simpa [parseFieldTy, hk, expectT, hident, harr2] using h
            refine ⟨fun he => absurd he hk, fun _ => ⟨tTok.text, ht.symm, hident⟩, ?_, ?_⟩
            · intro ha; rw [← harr3] at ha; exact Bool.noConfusion ha
            · intro n hn; rw [← hsz] at hn; exact Option.noConfusion hn
          · cases hfix : fixedArrayCapture nextTok.text with
            | some ds =>
              cases hps : parseUsize ds with
              | some m =>
                obtain ⟨⟨ht, harr3, hsz⟩, hrest2⟩ :
                    (some tTok.text = ty ∧ true = arr ∧ some m = sz) ∧ r2 = rest := by
                  simpa [parseFieldTy, hk, expectT, hident, harr2, hfix, hps] using h
                refine ⟨fun he => absurd he hk, fun _ => ⟨tTok.text, ht.symm, hident⟩, ?_, ?_⟩
                · intro ha; rw [← harr3] at ha; exact Bool.noConfusion ha
                · intro n hn
                  rw [← hsz] at hn
                  rw [← Option.some.inj hn]
                  exact parseUsize_lt hps
              | none =>
                simp [parseFieldTy, hk, expectT, hident, harr2, hfix, hps] at h
            | none =>
              obtain ⟨⟨ht, harr3, hsz⟩, hrest2⟩ :
                  (some tTok.text = ty ∧ false = arr ∧ none = sz) ∧ nextTok :: r2 = rest := by
                simpa [parseFieldTy, hk, expectT, hident, harr2, hfix] using h
              refine ⟨fun he => absurd he hk, fun _ => ⟨tTok.text, ht.symm, hident⟩,
                fun _ => hsz.symm, ?_⟩
              intro n hn
              rw [← hsz] at hn
              exact Option.noConfusion hn
      · simp [parseFieldTy, hk, expectT, hident] at h

/-- The value step produces an `i32`-ranged id for non-struct kinds. -/
theorem parseFieldVal_wf {kind : DefinitionKind} {n : Nat} {toks : List Token}
    {v : Int} {rest : List Token}
    (h : parseFieldVal kind n toks = .ok (v, rest)) :
    kind ≠ DefinitionKind.Struct → -(2 ^ 31) ≤ v ∧ v < 2 ^ 31 := by
  intro hk
  cases toks with
  | nil => simp [parseFieldVal, hk, expectT] at h
  | cons eqTok r =>
    by_cases heq : decide (eqTok.text = ['=']) = true
    · cases r with
      | nil => simp [parseFieldVal, hk, expectT, heq] at h
      | cons vTok r2 =>
        by_cases hint : isIntegerText vTok.text = true
        · cases hpi : parseI32 vTok.text with
          | some v0 =>
            obtain ⟨hv, hrest2⟩ : v0 = v ∧ r2 = rest := by
              simpa [parseFieldVal, hk, expectT, heq, hint, hpi] using h
            rw [← hv]
            exact parseI32_range hpi
          | none => simp [parseFieldVal, hk, expectT, heq, hint, hpi] at h
        · simp [parseFieldVal, hk, expectT, heq, hint] at h
    · simp [parseFieldVal, hk, expectT, heq] at h

/-- The deprecation step never marks a non-message field. -/
theorem parseFieldDep_wf {kind : DefinitionKind} {toks : List Token}
    {b : Bool} {rest : List Token}
    (h : parseFieldDep kind toks = .ok (b, rest)) :
    kind ≠ DefinitionKind.Message → b = false := by
  intro hk
  cases toks with
  | nil => exact PResult.noConfusion h
  | cons dTok r =>
    by_cases hdep : isDeprecatedText dTok.text = true
    · rw [parseFieldDep, if_pos hdep] at h
      rw [if_pos hk] at h
      exact PResult.noConfusion h
    · rw [parseFieldDep, if_neg hdep] at h
      exact ((Prod.mk.inj (PResult.ok.inj h)).1).symm

/-- Every field the parser accepts is well-formed for its kind. -/
theorem parseField_wf {kind : DefinitionKind} {nfields : Nat} {toks : List Token}
    {f : Field} {rest : List Token}
    (h : parseField kind nfields toks = .ok (f, rest)) : WFField kind f := by
  cases hty : parseFieldTy kind toks with
  | panic => simp only [parseField, hty] at h; exact PResult.noConfusion h
  | err e => simp only [parseField, hty] at h; exact PResult.noConfusion h
  | ok tv =>
    obtain ⟨⟨ty, arr, sz⟩, toks3⟩ := tv
    have htyw := parseFieldTy_wf hty
    cases toks3 with
    | nil => simp only [parseField, hty] at h; exact PResult.noConfusion h
    | cons fTok toks3r =>
      cases hexp : expectT isIdentText "identifier".toList (fTok :: toks3r) with
      | panic => simp only [parseField, hty, hexp] at h; exact PResult.noConfusion h
      | err e => simp only [parseField, hty, hexp] at h; exact PResult.noConfusion h
      | ok toks4 =>
        obtain ⟨fTok2, hcons, hfident⟩ := expectT_ok hexp
        have hfeq : fTok = fTok2 := (List.cons.inj hcons).1
        cases hval : parseFieldVal kind nfields toks4 with
        | panic => simp only [parseField, hty, hexp, hval] at h; exact PResult.noConfusion h
        | err e => simp only [parseField, hty, hexp, hval] at h; exact PResult.noConfusion h
        | ok vv =>
          obtain ⟨value, toks7⟩ := vv
          have hvalw := parseFieldVal_wf hval
          cases hdep : parseFieldDep kind toks7 with
          | panic => simp only [parseField, hty, hexp, hval, hdep] at h; exact PResult.noConfusion h
          | err e => simp only [parseField, hty, hexp, hval, hdep] at h; exact PResult.noConfusion h
          | ok dv =>
            obtain ⟨is_depr, toks9⟩ := dv
            have hdepw := parseFieldDep_wf hdep
            cases hsemi : expectT (fun s => decide (s = [';'])) "\";\"".toList toks9 with
            | panic => simp only [parseField, hty, hexp, hval, hdep, hsemi] at h; exact PResult.noConfusion h
            | err e => simp only [parseField, hty, hexp, hval, hdep, hsemi] at h; exact PResult.noConfusion h
            | ok toks10 =>
              simp only [parseField, hty, hexp, hval, hdep, hsemi] at h
              have hf := (Prod.mk.inj (PResult.ok.inj h)).1
              rw [← hf]
              have hni : isIdentText fTok.text = true := by
                rw [hfeq]; exact hfident
              cases kind with
              | Enum =>
                obtain ⟨hte, hae, hse⟩ := htyw.1 rfl
                refine ⟨hni, hte, hae, hse, hdepw (by decide), ?_, ?_⟩
                · have := (hvalw (by decide)).1
                  simpa using this
                · have := (hvalw (by decide)).2
                  simpa using this
              | Struct =>
                obtain ⟨t, hts, hits⟩ := htyw.2.1 (by decide)
                refine ⟨hni, ⟨t, hts, hits⟩, hdepw (by decide), ?_, ?_⟩
                · intro ha
                  exact htyw.2.2.1 (by simpa using ha)
                · intro n hn
                  exact htyw.2.2.2 n (by simpa using hn)
              | Message =>
                obtain ⟨t, hts, hits⟩ := htyw.2.1 (by decide)
                refine ⟨hni, ⟨t, hts, hits⟩, ?_, ?_, ?_, ?_⟩
                · have := (hvalw (by decide)).1
                  simpa using this
                · have := (hvalw (by decide)).2
                  simpa using this
                · intro ha
                  exact htyw.2.2.1 (by simpa using ha)
                · intro n hn
                  exact htyw.2.2.2 n (by simpa using hn)

/-- Every field accepted by the field loop is well-formed. -/
theorem parseFields_wf (fuel : Nat) :
    ∀ {kind : DefinitionKind} {acc : List Field} {toks : List Token}
      {fields : List Field} {rest : List Token},
      parseFields fuel kind acc toks = .ok (fields, rest) →
      (∀ f ∈ acc, WFField kind f) → ∀ f ∈ fields, WFField kind f := by
  induction fuel with
  | zero =>
    intro kind acc toks fields rest h hacc
    exact PResult.noConfusion h
  | succ fuel ih =>
    intro kind acc toks fields rest h hacc
    cases heat : eatT (fun s => decide (s = [rbraceChar])) toks with
    | panic => simp only [parseFields, heat] at h; exact PResult.noConfusion h
    | err e => simp only [parseFields, heat] at h; exact PResult.noConfusion h
    | ok bv =>
      obtain ⟨b, r⟩ := bv
      cases b with
      | true =>
        simp only [parseFields, heat] at h
        have hfr := Prod.mk.inj (PResult.ok.inj h)
        rw [← hfr.1]
        exact hacc
      | false =>
        cases hpf : parseField kind acc.length toks with
        | panic => simp only [parseFields, heat, hpf] at h; exact PResult.noConfusion h
        | err e => simp only [parseFields, heat, hpf] at h; exact PResult.noConfusion h
        | ok fv =>
          obtain ⟨f0, rest0⟩ := fv
          simp only [parseFields, heat, hpf] at h
          refine ih h ?_
          intro g hg
          rcases List.mem_append.mp hg with hg1 | hg2
          · exact hacc g hg1
          · rw [List.mem_singleton.mp hg2]
            exact parseField_wf hpf

/-- The keyword dispatch consumed exactly the keyword of the returned
kind. -/
theorem parseDefKind_ok {toks : List Token} {kind : DefinitionKind} {rest : List Token}
    (h : parseDefKind toks = .ok (kind, rest)) :
    ∃ t, toks = t :: rest ∧ t.text = kindKeyword kind := by
  cases toks with
  | nil => simp [parseDefKind, eatT] at h
  | cons t r =>
    by_cases h1 : t.text = "enum".toList
    · obtain ⟨hk, hr⟩ : DefinitionKind.Enum = kind ∧ r = rest := by
        have h2 : PResult.ok ((DefinitionKind.Enum, r) : DefinitionKind × List Token) =
            PResult.ok (kind, rest) := by
          rw [← h]
          simp [parseDefKind, eatT, h1]
        exact Prod.mk.inj (PResult.ok.inj h2)
      refine ⟨t, by rw [hr], ?_⟩
      rw [← hk]
      exact h1
    · by_cases h2 : t.text = "struct".toList
      · obtain ⟨hk, hr⟩ : DefinitionKind.Struct = kind ∧ r = rest := by
          have h3 : PResult.ok ((DefinitionKind.Struct, r) : DefinitionKind × List Token) =
              PResult.ok (kind, rest) := by
            rw [← h]
            have h1l : ¬t.text = ['e', 'n', 'u', 'm'] := h1
            simp [parseDefKind, eatT, h1l, h2]
          exact Prod.mk.inj (PResult.ok.inj h3)
        refine ⟨t, by rw [hr], ?_⟩
        rw [← hk]
        exact h2
      · by_cases h3 : t.text = "message".toList
        · obtain ⟨hk, hr⟩ : DefinitionKind.Message = kind ∧ r = rest := by
            have h4 : PResult.ok ((DefinitionKind.Message, r) : DefinitionKind × List Token) =
                PResult.ok (kind, rest) := by
              rw [← h]
              have h1l : ¬t.text = ['e', 'n', 'u', 'm'] := h1
              have h2l : ¬t.text = ['s', 't', 'r', 'u', 'c', 't'] := h2
              simp [parseDefKind, eatT, h1l, h2l, h3]
            exact Prod.mk.inj (PResult.ok.inj h4)
          refine ⟨t, by rw [hr], ?_⟩
          rw [← hk]
          exact h3
        · have h1l : ¬t.text = ['e', 'n', 'u', 'm'] := h1
          have h2l : ¬t.text = ['s', 't', 'r', 'u', 'c', 't'] := h2
          have h3l : ¬t.text = ['m', 'e', 's', 's', 'a', 'g', 'e'] := h3
          simp [parseDefKind, eatT, h1l, h2l, h3l] at h

/-- Every definition accepted by the definition loop is well-formed. -/
theorem parseDefs_wf (fuel : Nat) :
    ∀ {acc : List Definition} {toks : List Token} {defs : List Definition},
      parseDefs fuel acc toks = .ok defs →
      (∀ d ∈ acc, WFDef d) → ∀ d ∈ defs, WFDef d := by
  induction fuel with
  | zero =>
    intro acc toks defs h hacc
    exact PResult.noConfusion h
  | succ fuel ih =>
    intro acc toks defs h hacc
    cases toks with
    | nil =>
      simp only [parseDefs] at h
      rw [← PResult.ok.inj h]
      exact hacc
    | cons t0 r0 =>
      cases heof : eatT isEOFText (t0 :: r0) with
      | panic => simp only [parseDefs, heof] at h; exact PResult.noConfusion h
      | err e => simp only [parseDefs, heof] at h; exact PResult.noConfusion h
      | ok bv =>
        obtain ⟨b, r⟩ := bv
        cases b with
        | true =>
          simp only [parseDefs, heof] at h
          rw [← PResult.ok.inj h]
          exact hacc
        | false =>
          cases hkind : parseDefKind (t0 :: r0) with
          | panic => simp only [parseDefs, heof, hkind] at h; exact PResult.noConfusion h
          | err e => simp only [parseDefs, heof, hkind] at h; exact PResult.noConfusion h
          | ok kv =>
            obtain ⟨kind, toks1⟩ := kv
            cases toks1 with
            | nil => simp only [parseDefs, heof, hkind] at h; exact PResult.noConfusion h
            | cons nameTok toks1r =>
              cases hexp : expectT isIdentText "identifier".toList (nameTok :: toks1r) with
              | panic => simp only [parseDefs, heof, hkind, hexp] at h; exact PResult.noConfusion h
              | err e => simp only [parseDefs, heof, hkind, hexp] at h; exact PResult.noConfusion h
              | ok toks2 =>
                obtain ⟨nt2, hcons, hnident⟩ := expectT_ok hexp
                have hneq : nameTok = nt2 := (List.cons.inj hcons).1
                cases hbr : expectT (fun s => decide (s = [lbraceChar]))
                    ("\"".toList ++ [lbraceChar] ++ "\"".toList) toks2 with
                | panic => simp only [parseDefs, heof, hkind, hexp, hbr] at h; exact PResult.noConfusion h
                | err e => simp only [parseDefs, heof, hkind, hexp, hbr] at h; exact PResult.noConfusion h
                | ok toks3 =>
                  cases hpf : parseFields (toks3.length + 1) kind [] toks3 with
                  | panic => simp only [parseDefs, heof, hkind, hexp, hbr, hpf] at h; exact PResult.noConfusion h
                  | err e => simp only [parseDefs, heof, hkind, hexp, hbr, hpf] at h; exact PResult.noConfusion h
                  | ok fv =>
                    obtain ⟨fields, toks4⟩ := fv
                    simp only [parseDefs, heof, hkind, hexp, hbr, hpf] at h
                    refine ih h ?_
                    intro g hg
                    rcases List.mem_append.mp hg with hg1 | hg2
                    · exact hacc g hg1
                    · rw [List.mem_singleton.mp hg2]
                      refine ⟨?_, ?_⟩
                      · show isIdentText nameTok.text = true
                        rw [hneq]
                        exact hnident
                      · intro f hf
                        exact parseFields_wf (toks3.length + 1) hpf (by simp) f hf

/-- A parsed package name is an identifier. -/
theorem parsePackage_wf {tokens : List Token} {pkg : Option Str} {rest : List Token}
    (h : parsePackage tokens = .ok (pkg, rest)) :
    ∀ p, pkg = some p → isIdentText p = true := by
  intro p hp
  cases heat : eatT (fun s => decide (s = "package".toList)) tokens with
  | panic => simp only [parsePackage, heat] at h; exact PResult.noConfusion h
  | err e => simp only [parsePackage, heat] at h; exact PResult.noConfusion h
  | ok bv =>
    obtain ⟨b, toks1⟩ := bv
    cases b with
    | false =>
      simp only [parsePackage, heat] at h
      have h2 := (Prod.mk.inj (PResult.ok.inj h)).1
      rw [← h2] at hp
      exact Option.noConfusion hp
    | true =>
      cases toks1 with
      | nil => simp only [parsePackage, heat] at h; exact PResult.noConfusion h
      | cons pkgTok toks1r =>
        cases hexp : expectT isIdentText "identifier".toList (pkgTok :: toks1r) with
        | panic => simp only [parsePackage, heat, hexp] at h; exact PResult.noConfusion h
        | err e => simp only [parsePackage, heat, hexp] at h; exact PResult.noConfusion h
        | ok toks2 =>
          obtain ⟨t2, hcons, hpident⟩ := expectT_ok hexp
          have hpeq : pkgTok = t2 := (List.cons.inj hcons).1
          cases hsemi : expectT (fun s => decide (s = [';'])) "\";\"".toList toks2 with
          | panic => simp only [parsePackage, heat, hexp, hsemi] at h; exact PResult.noConfusion h
          | err e => simp only [parsePackage, heat, hexp, hsemi] at h; exact PResult.noConfusion h
          | ok toks3 =>
            simp only [parsePackage, heat, hexp, hsemi] at h
            have h2 := (Prod.mk.inj (PResult.ok.inj h)).1
            rw [← h2] at hp
            have hpt : pkgTok.text = p := Option.some.inj hp
            rw [← hpt, hpeq]
            exact hpident

/-- Every schema the parser accepts is well-formed. -/
theorem parse_schema_wf {tokens : List Token} {s : Schema}
    (h : parse_schema tokens = .ok s) : WFSchema s := by
  cases hpkg : parsePackage tokens with
  | panic => simp only [parse_schema, hpkg] at h; exact PResult.noConfusion h
  | err e => simp only [parse_schema, hpkg] at h; exact PResult.noConfusion h
  | ok pv =>
    obtain ⟨pkg, toks4⟩ := pv
    cases hdefs : parseDefs (toks4.length + 1) [] toks4 with
    | panic => simp only [parse_schema, hpkg, hdefs] at h; exact PResult.noConfusion h
    | err e => simp only [parse_schema, hpkg, hdefs] at h; exact PResult.noConfusion h
    | ok defs =>
      simp only [parse_schema, hpkg, hdefs] at h
      rw [← PResult.ok.inj h]
      refine ⟨?_, ?_⟩
      · intro p hp
        exact parsePackage_wf hpkg p hp
      · intro d hd
        exact parseDefs_wf (toks4.length + 1) hdefs (by simp) d hd

/-- Decomposing a token list along a cons of expected texts. -/
theorem map_text_cons {toks : List Token} {x : Str} {xs : List Str}
    (h : toks.map Token.text = x :: xs) :
    ∃ t ts, toks = t :: ts ∧ t.text = x ∧ ts.map Token.text = xs := by
  cases toks with
  | nil => simp at h
  | cons t ts =>
    rw [List.map_cons] at h
    exact ⟨t, ts, rfl, (List.cons.inj h).1, (List.cons.inj h).2⟩

/-- A token list with no texts is empty. -/
theorem map_text_nil {toks : List Token} (h : toks.map Token.text = []) : toks = [] := by
  cases toks with
  | nil => rfl
  | cons t ts => simp at h

/-- Decomposing a token list along an append of expected texts. -/
theorem map_text_append {toks : List Token} {xs ys : List Str}
    (h : toks.map Token.text = xs ++ ys) :
    ∃ as bs, toks = as ++ bs ∧ as.map Token.text = xs ∧ bs.map Token.text = ys := by
  induction xs generalizing toks with
  | nil => exact ⟨[], toks, rfl, rfl, h⟩
  | cons x xs ih =>
    rw [List.cons_append] at h
    obtain ⟨t, ts, rfl, hx, hts⟩ := map_text_cons h
    obtain ⟨as, bs, rfl, has, hbs⟩ := ih hts
    exact ⟨t :: as, bs, rfl, by simp [hx, has], hbs⟩

/-- The fixed-array capture of a rendered `[N]` token is its digit
string. -/
theorem fixedArrayCapture_render (n : Nat) :
    fixedArrayCapture ('[' :: (renderNat n ++ [']'])) = some (renderNat n) := by
  obtain ⟨hne, hall⟩ := renderNat_shape n
  have htw : (renderNat n ++ [']']).takeWhile isDigitC = renderNat n :=
    takeWhile_run (fun c hc => hall c hc) (by decide)
  have hdw : (renderNat n ++ [']']).dropWhile isDigitC = [']'] :=
    dropWhile_run (fun c hc => hall c hc) (by decide)
  unfold fixedArrayCapture
  rw [if_pos (show ('[' :: (renderNat n ++ [']'])).head? = some '[' from rfl)]
  rw [show ('[' :: (renderNat n ++ [']'])).tail = renderNat n ++ [']'] from rfl]
  rw [if_pos]
  · rw [htw]
  · rw [htw, hdw]
    simp [hne, List.isEmpty_iff]

/-- A rendered `[N]` token is not the plain `[]` token. -/
theorem isArrayText_render (n : Nat) :
    isArrayText ('[' :: (renderNat n ++ [']'])) = false := by
  obtain ⟨hne, _⟩ := renderNat_shape n
  simp only [isArrayText, decide_eq_false_iff_not]
  intro hcon
  have h2 := (List.cons.inj hcon).2
  have h3 := congrArg List.length h2
  simp at h3
  exact hne h3

/-- The value step on the canonical `=`-and-integer tokens returns the
rendered value. -/
theorem parseFieldVal_canon {kind : DefinitionKind} (hk : kind ≠ DefinitionKind.Struct)
    {eqTok vTok : Token} {r : List Token} {n : Nat} {v : Int}
    (he : eqTok.text = ['=']) (hv : vTok.text = renderInt v)
    (h1 : -(2 ^ 31) ≤ v) (h2 : v < 2 ^ 31) :
    parseFieldVal kind n (eqTok :: vTok :: r) = .ok (v, r) := by
  simp [parseFieldVal, hk, expectT, he, hv, isIntegerText_renderInt,
    parseI32_renderInt h1 h2]

/-- Parsing the canonical tokens of a formatted enum field succeeds
and formats back identically. -/
theorem parseField_canon_enum {f : Field} (hwf : WFField DefinitionKind.Enum f)
    (n : Nat) {ftoks : List Token} (rest : List Token)
    (htexts : ftoks.map Token.text = fieldTexts DefinitionKind.Enum f ++ [[';']]) :
    ∃ f', parseField DefinitionKind.Enum n (ftoks ++ rest) = .ok (f', rest) ∧
      format_field DefinitionKind.Enum f' = format_field DefinitionKind.Enum f := by
  obtain ⟨hname, hty, harr, hsz, hdep, hlo, hhi⟩ := hwf
  obtain ⟨t1, r1, rfl, ht1, h1⟩ := map_text_cons htexts
  obtain ⟨t2, r2, rfl, ht2, h2⟩ := map_text_cons h1
  obtain ⟨t3, r3, rfl, ht3, h3⟩ := map_text_cons h2
  obtain ⟨t4, r4, rfl, ht4, h4⟩ := map_text_cons h3
  obtain rfl := map_text_nil h4
  have e1 : parseFieldTy DefinitionKind.Enum (t1 :: t2 :: t3 :: t4 :: rest) =
      .ok ((none, false, none), t1 :: t2 :: t3 :: t4 :: rest) := by
    simp [parseFieldTy]
  have e2 : expectT isIdentText "identifier".toList (t1 :: t2 :: t3 :: t4 :: rest) =
      .ok (t2 :: t3 :: t4 :: rest) := by
    simp [expectT, ht1, hname]
  have e3 : parseFieldVal DefinitionKind.Enum n (t2 :: t3 :: t4 :: rest) =
      .ok (f.field_id, t4 :: rest) :=
    parseFieldVal_canon (by decide) ht2 ht3 hlo hhi
  have e4 : parseFieldDep DefinitionKind.Enum (t4 :: rest) = .ok (false, t4 :: rest) := by
    simp [parseFieldDep, isDeprecatedText, ht4]
  have e5 : expectT (fun s => decide (s = [';'])) "\";\"".toList (t4 :: rest) = .ok rest := by
    simp [expectT, ht4]
  refine ⟨⟨f.name, t1.line, t1.column, none, false, none, false, f.field_id⟩, ?_, ?_⟩
  · show parseField DefinitionKind.Enum n (t1 :: t2 :: t3 :: t4 :: rest) = _
    simp only [parseField, e1, e2, e3, e4, e5]
    simp [ht1]
  · simp [format_field]

/-- The type-and-array step on the canonical type and array-suffix
tokens reproduces the field's type and array data. -/
theorem parseFieldTy_canon {kind : DefinitionKind} (hk : kind ≠ DefinitionKind.Enum)
    {f : Field} {t : Str} (ht : f.type_ = some t) (harr : ArrOK f)
    {tyTok : Token} (hty : tyTok.text = t) (hit : isIdentText t = true)
    {atoks : List Token} {r : List Token} (hmap : atoks.map Token.text = arrTexts f)
    {nTok : Token} (hn : isIdentText nTok.text = true) :
    parseFieldTy kind (tyTok :: (atoks ++ (nTok :: r))) =
      .ok ((some t, f.is_array, f.array_size), nTok :: r) := by
  unfold arrTexts at hmap
  by_cases ha : f.is_array
  · rw [if_pos ha] at hmap
    cases hs : f.array_size with
    | none =>
      rw [hs] at hmap
      obtain ⟨a1, r1, rfl, ha1, h1⟩ := map_text_cons hmap
      obtain rfl := map_text_nil h1
      show parseFieldTy kind (tyTok :: a1 :: nTok :: r) = _
      simp [parseFieldTy, hk, expectT, hty, hit, isArrayText, ha1, ha, hs]
    | some m =>
      rw [hs] at hmap
      obtain ⟨a1, r1, rfl, ha1, h1⟩ := map_text_cons hmap
      obtain rfl := map_text_nil h1
      have hm64 : m < 2 ^ 64 := harr.2 m hs
      show parseFieldTy kind (tyTok :: a1 :: nTok :: r) = _
      simp [parseFieldTy, hk, expectT, hty, hit, ha1, isArrayText_render,
        fixedArrayCapture_render, parseUsize_renderNat hm64, ha, hs]
  · rw [if_neg ha] at hmap
    obtain rfl := map_text_nil hmap
    have ha2 : f.is_array = false := by revert ha; cases f.is_array <;> simp
    have hs2 := harr.1 ha2
    show parseFieldTy kind (tyTok :: nTok :: r) = _
    simp [parseFieldTy, hk, expectT, hty, hit, isIdent_not_array hn,
      isIdent_not_fixed hn, ha2, hs2]

/-- Parsing the canonical tokens of a formatted struct field succeeds
and formats back identically. -/
theorem parseField_canon_struct {f : Field} (hwf : WFField DefinitionKind.Struct f)
    (n : Nat) {ftoks : List Token} (rest : List Token)
    (htexts : ftoks.map Token.text = fieldTexts DefinitionKind.Struct f ++ [[';']]) :
    ∃ f', parseField DefinitionKind.Struct n (ftoks ++ rest) = .ok (f', rest) ∧
      format_field DefinitionKind.Struct f' = format_field DefinitionKind.Struct f := by
  obtain ⟨hname, ⟨t, ht, hit⟩, hdep, harr⟩ := hwf
  have htexts2 : ftoks.map Token.text = t :: (arrTexts f ++ ([f.name] ++ [[';']])) := by
    rw [htexts]
    show (fieldTexts DefinitionKind.Struct f) ++ [[';']] = _
    rw [show fieldTexts DefinitionKind.Struct f =
      f.type_.getD [] :: (arrTexts f ++ [f.name]) from rfl, ht]
    simp
  obtain ⟨tyTok, r1, rfl, hty, h1⟩ := map_text_cons htexts2
  obtain ⟨atoks, bs, rfl, hmap, hbs⟩ := map_text_append h1
  obtain ⟨nTok, r2, rfl, hn, h2⟩ := map_text_cons hbs
  obtain ⟨sTok, r3, rfl, hsemi, h3⟩ := map_text_cons h2
  obtain rfl := map_text_nil h3
  have hshape : (tyTok :: (atoks ++ [nTok, sTok])) ++ rest =
      tyTok :: (atoks ++ (nTok :: sTok :: rest)) := by
    simp
  have hni : isIdentText nTok.text = true := by rw [hn]; exact hname
  have e1 := @parseFieldTy_canon DefinitionKind.Struct (by decide) f t ht harr
    tyTok hty hit atoks (sTok :: rest) hmap nTok hni
  have e2 : expectT isIdentText "identifier".toList (nTok :: sTok :: rest) =
      .ok (sTok :: rest) := by
    simp [expectT, hni]
  have e3 : parseFieldVal DefinitionKind.Struct n (sTok :: rest) =
      .ok ((n : Int) + 1, sTok :: rest) := by
    simp [parseFieldVal]
  have e4 : parseFieldDep DefinitionKind.Struct (sTok :: rest) =
      .ok (false, sTok :: rest) := by
    simp [parseFieldDep, isDeprecatedText, hsemi]
  have e5 : expectT (fun s => decide (s = [';'])) "\";\"".toList (sTok :: rest) =
      .ok rest := by
    simp [expectT, hsemi]
  refine ⟨⟨f.name, nTok.line, nTok.column, some t, f.is_array, f.array_size, false,
    (n : Int) + 1⟩, ?_, ?_⟩
  · rw [hshape]
    simp only [parseField, e1, e2, e3, e4, e5]
    simp [hn]
  · simp [format_field, format_typed_field, ht]

/-- Parsing the canonical tokens of a formatted message field
succeeds and formats back identically. -/
theorem parseField_canon_message {f : Field} (hwf : WFField DefinitionKind.Message f)
    (n : Nat) {ftoks : List Token} (rest : List Token)
    (htexts : ftoks.map Token.text = fieldTexts DefinitionKind.Message f ++ [[';']]) :
    ∃ f', parseField DefinitionKind.Message n (ftoks ++ rest) = .ok (f', rest) ∧
      format_field DefinitionKind.Message f' = format_field DefinitionKind.Message f := by
  obtain ⟨hname, ⟨t, ht, hit⟩, hlo, hhi, harr⟩ := hwf
  by_cases hd : f.is_deprecated
  · have htexts2 : ftoks.map Token.text =
        t :: (arrTexts f ++ ([f.name, ['='], renderInt f.field_id] ++
          ([('[' :: depChars)] ++ [[';']]))) := by
      rw [htexts]
      show (fieldTexts DefinitionKind.Message f) ++ [[';']] = _
      rw [show fieldTexts DefinitionKind.Message f =
        f.type_.getD [] :: (arrTexts f ++ [f.name, ['='], renderInt f.field_id] ++
          (if f.is_deprecated then [('[' :: depChars)] else [])) from rfl, ht, if_pos hd]
      simp
    obtain ⟨tyTok, r1, rfl, hty, h1⟩ := map_text_cons htexts2
    obtain ⟨atoks, bs, rfl, hmap, hbs⟩ := map_text_append h1
    obtain ⟨nTok, r2, rfl, hn, h2⟩ := map_text_cons hbs
    obtain ⟨eqTok, r3, rfl, heq, h3⟩ := map_text_cons h2
    obtain ⟨vTok, r4, rfl, hv, h4⟩ := map_text_cons h3
    obtain ⟨dTok, r5, rfl, hdt, h5⟩ := map_text_cons h4
    obtain ⟨sTok, r6, rfl, hsemi, h6⟩ := map_text_cons h5
    obtain rfl := map_text_nil h6
    have hshape : (tyTok :: (atoks ++ [nTok, eqTok, vTok, dTok, sTok])) ++ rest =
        tyTok :: (atoks ++ (nTok :: eqTok :: vTok :: dTok :: sTok :: rest)) := by
      simp
    have hni : isIdentText nTok.text = true := by rw [hn]; exact hname
    have e1 := @parseFieldTy_canon DefinitionKind.Message (by decide) f t ht harr
      tyTok hty hit atoks (eqTok :: vTok :: dTok :: sTok :: rest) hmap nTok hni
    have e2 : expectT isIdentText "identifier".toList
        (nTok :: eqTok :: vTok :: dTok :: sTok :: rest) =
        .ok (eqTok :: vTok :: dTok :: sTok :: rest) := by
      simp [expectT, hni]
    have e3 : parseFieldVal DefinitionKind.Message n
        (eqTok :: vTok :: dTok :: sTok :: rest) =
        .ok (f.field_id, dTok :: sTok :: rest) :=
      parseFieldVal_canon (by decide) heq hv hlo hhi
    have e4 : parseFieldDep DefinitionKind.Message (dTok :: sTok :: rest) =
        .ok (true, sTok :: rest) := by
      simp [parseFieldDep, isDeprecatedText, hdt]
    have e5 : expectT (fun s => decide (s = [';'])) "\";\"".toList (sTok :: rest) =
        .ok rest := by
      simp [expectT, hsemi]
    refine ⟨⟨f.name, nTok.line, nTok.column, some t, f.is_array, f.array_size, true,
      f.field_id⟩, ?_, ?_⟩
    · rw [hshape]
      simp only [parseField, e1, e2, e3, e4, e5]
      simp [hn]
    · simp [format_field, format_typed_field, ht, hd]
  · have htexts2 : ftoks.map Token.text =
        t :: (arrTexts f ++ ([f.name, ['='], renderInt f.field_id] ++ [[';']])) := by
      rw [htexts]
      show (fieldTexts DefinitionKind.Message f) ++ [[';']] = _
      rw [show fieldTexts DefinitionKind.Message f =
        f.type_.getD [] :: (arrTexts f ++ [f.name, ['='], renderInt f.field_id] ++
          (if f.is_deprecated then [('[' :: depChars)] else [])) from rfl, ht, if_neg hd]
      simp
    obtain ⟨tyTok, r1, rfl, hty, h1⟩ := map_text_cons htexts2
    obtain ⟨atoks, bs, rfl, hmap, hbs⟩ := map_text_append h1
    obtain ⟨nTok, r2, rfl, hn, h2⟩ := map_text_cons hbs
    obtain ⟨eqTok, r3, rfl, heq, h3⟩ := map_text_cons h2
    obtain ⟨vTok, r4, rfl, hv, h4⟩ := map_text_cons h3
    obtain ⟨sTok, r5, rfl, hsemi, h5⟩ := map_text_cons h4
    obtain rfl := map_text_nil h5
    have hshape : (tyTok :: (atoks ++ [nTok, eqTok, vTok, sTok])) ++ rest =
        tyTok :: (atoks ++ (nTok :: eqTok :: vTok :: sTok :: rest)) := by
      simp
    have hni : isIdentText nTok.text = true := by rw [hn]; exact hname
    have e1 := @parseFieldTy_canon DefinitionKind.Message (by decide) f t ht harr
      tyTok hty hit atoks (eqTok :: vTok :: sTok :: rest) hmap nTok hni
    have e2 : expectT isIdentText "identifier".toList
        (nTok :: eqTok :: vTok :: sTok :: rest) =
        .ok (eqTok :: vTok :: sTok :: rest) := by
      simp [expectT, hni]
    have e3 : parseFieldVal DefinitionKind.Message n (eqTok :: vTok :: sTok :: rest) =
        .ok (f.field_id, sTok :: rest) :=
      parseFieldVal_canon (by decide) heq hv hlo hhi
    have e4 : parseFieldDep DefinitionKind.Message (sTok :: rest) =
        .ok (false, sTok :: rest) := by
      simp [parseFieldDep, isDeprecatedText, hsemi]
    have e5 : expectT (fun s => decide (s = [';'])) "\";\"".toList (sTok :: rest) =
        .ok rest := by
      simp [expectT, hsemi]
    have hd2 : f.is_deprecated = false := by revert hd; cases f.is_deprecated <;> simp
    refine ⟨⟨f.name, nTok.line, nTok.column, some t, f.is_array, f.array_size, false,
      f.field_id⟩, ?_, ?_⟩
    · rw [hshape]
      simp only [parseField, e1, e2, e3, e4, e5]
      simp [hn]
    · simp [format_field, format_typed_field, ht, hd2]

/-- Parsing the canonical tokens of any well-formed formatted field
succeeds and formats back identically. -/
theorem parseField_canon {kind : DefinitionKind} {f : Field} (hwf : WFField kind f)
    (n : Nat) {ftoks : List Token} (rest : List Token)
    (htexts : ftoks.map Token.text = fieldTexts kind f ++ [[';']]) :
    ∃ f', parseField kind n (ftoks ++ rest) = .ok (f', rest) ∧
      format_field kind f' = format_field kind f := by
  cases kind with
  | Enum => exact parseField_canon_enum hwf n rest htexts
  | Struct => exact parseField_canon_struct hwf n rest htexts
  | Message => exact parseField_canon_message hwf n rest htexts

/-- A field's first token text is an identifier. -/
theorem fieldTexts_head_ident {kind : DefinitionKind} {f : Field} (hwf : WFField kind f) :
    ∃ s ts, fieldTexts kind f = s :: ts ∧ isIdentText s = true := by
  obtain ⟨hname, hk⟩ := hwf
  cases kind with
  | Enum => exact ⟨f.name, _, rfl, hname⟩
  | Struct =>
    obtain ⟨⟨t, ht, hit⟩, _, _⟩ := hk
    refine ⟨f.type_.getD [], _, rfl, ?_⟩
    rw [ht]
    exact hit
  | Message =>
    obtain ⟨⟨t, ht, hit⟩, _, _, _⟩ := hk
    refine ⟨f.type_.getD [], _, rfl, ?_⟩
    rw [ht]
    exact hit

/-- A field list has no more fields than token texts. -/
theorem fieldsTexts_length {kind : DefinitionKind} :
    ∀ (fs : List Field), fs.length ≤ (fieldsTexts kind fs).length := by
  intro fs
  induction fs with
  | nil => simp [fieldsTexts]
  | cons f fs ih =>
    show (f :: fs).length ≤ (fieldTexts kind f ++ [[';']] ++ fieldsTexts kind fs).length
    simp only [List.length_cons, List.length_append]
    omega

/-- The field loop on the canonical tokens of a formatted field list
collects fields that format back identically. -/
theorem parseFields_canon {kind : DefinitionKind} :
    ∀ {fs : List Field}, (∀ f ∈ fs, WFField kind f) →
      ∀ (acc : List Field) {ftoks : List Token} (rest : List Token) (fuel : Nat),
        fs.length < fuel →
        ftoks.map Token.text = fieldsTexts kind fs ++ [[rbraceChar]] →
        ∃ fs', parseFields fuel kind acc (ftoks ++ rest) = .ok (acc ++ fs', rest) ∧
          fs'.map (format_field kind) = fs.map (format_field kind) := by
  intro fs
  induction fs with
  | nil =>
    intro _ acc ftoks rest fuel hfuel htexts
    obtain ⟨bTok, r1, rfl, hb, h1⟩ := map_text_cons htexts
    obtain rfl := map_text_nil h1
    cases fuel with
    | zero => omega
    | succ fuel =>
      refine ⟨[], ?_, rfl⟩
      show parseFields (fuel + 1) kind acc (bTok :: rest) = .ok (acc ++ [], rest)
      have he : eatT (fun s => decide (s = [rbraceChar])) (bTok :: rest) =
          .ok (true, rest) := by
        simp [eatT, hb]
      simp only [parseFields, he]
      simp
  | cons f fs ih =>
    intro hwf acc ftoks rest fuel hfuel htexts
    have htexts2 : ftoks.map Token.text =
        (fieldTexts kind f ++ [[';']]) ++ (fieldsTexts kind fs ++ [[rbraceChar]]) := by
      rw [htexts]
      show (fieldTexts kind f ++ [[';']] ++ fieldsTexts kind fs) ++ [[rbraceChar]] = _
      simp
    obtain ⟨ftoksF, rtoks, rfl, hFtexts, hRtexts⟩ := map_text_append htexts2
    cases fuel with
    | zero => omega
    | succ fuel =>
      have hwfF := hwf f (List.mem_cons_self f fs)
      obtain ⟨s, ts, hst, hsi⟩ := fieldTexts_head_ident hwfF
      have hFtexts2 : ftoksF.map Token.text = s :: (ts ++ [[';']]) := by
        rw [hFtexts, hst]
        simp
      obtain ⟨tok0, ftoksR, rfl, htok0, _⟩ := map_text_cons hFtexts2
      have hne : decide (tok0.text = [rbraceChar]) = false := by
        rw [htok0]
        simpa using isIdent_not_rbrace hsi
      have hshape : ((tok0 :: ftoksR) ++ rtoks) ++ rest = (tok0 :: ftoksR) ++ (rtoks ++ rest) := by
        simp
      obtain ⟨f', hpf, hfmt⟩ := parseField_canon hwfF acc.length (rtoks ++ rest) hFtexts
      have heat : eatT (fun s => decide (s = [rbraceChar]))
          ((tok0 :: ftoksR) ++ (rtoks ++ rest)) =
          .ok (false, (tok0 :: ftoksR) ++ (rtoks ++ rest)) := by
        simp [eatT, hne]
      obtain ⟨fs', hrec, hfmts⟩ := ih (fun g hg => hwf g (List.mem_cons_of_mem f hg))
        (acc ++ [f']) rest fuel (by simp at hfuel ⊢; omega) hRtexts
      refine ⟨f' :: fs', ?_, ?_⟩
      · rw [hshape]
        simp only [parseFields, heat, hpf]
        rw [hrec]
        simp
      · simp [hfmt, hfmts]

/-- The keyword dispatch accepts each definition keyword. -/
theorem parseDefKind_canon {kind : DefinitionKind} {t : Token} {r : List Token}
    (h : t.text = kindKeyword kind) :
    parseDefKind (t :: r) = .ok (kind, r) := by
  cases kind <;> simp [parseDefKind, eatT, h, kindKeyword]

/-- A definition list has no more definitions than token texts. -/
theorem defsTexts_length : ∀ (ds : List Definition), ds.length ≤ (defsTexts ds).length := by
  intro ds
  induction ds with
  | nil => simp [defsTexts]
  | cons d ds ih =>
    show (d :: ds).length ≤ (defTexts d ++ defsTexts ds).length
    simp only [List.length_cons, List.length_append, defTexts]
    omega

/-- Definition keywords are nonempty. -/
theorem kindKeyword_ne_nil (kind : DefinitionKind) : kindKeyword kind ≠ [] := by
  cases kind <;> decide

/-- Formatting a definition ignores positions: equal names, kind and
field renderings give equal output. -/
theorem format_definition_congr {d : Definition} {name : Str} {ln col : Nat}
    {fields' : List Field} (hn : name = d.name)
    (hf : fields'.map (format_field d.kind) = d.fields.map (format_field d.kind)) :
    format_definition ⟨name, ln, col, d.kind, fields'⟩ = format_definition d := by
  unfold format_definition
  simp [hn, hf]

/-- The definition loop on the canonical tokens of a formatted
definition list collects definitions that format back identically. -/
theorem parseDefs_canon :
    ∀ {ds : List Definition}, (∀ d ∈ ds, WFDef d) →
      ∀ (acc : List Definition) {dtoks : List Token} (eTok : Token)
        (heof : eTok.text = []) (fuel : Nat), ds.length < fuel →
        dtoks.map Token.text = defsTexts ds →
        ∃ ds', parseDefs fuel acc (dtoks ++ [eTok]) = .ok (acc ++ ds') ∧
          ds'.map format_definition = ds.map format_definition := by
  intro ds
  induction ds with
  | nil =>
    intro _ acc dtoks eTok heof fuel hfuel htexts
    obtain rfl := map_text_nil htexts
    cases fuel with
    | zero => omega
    | succ fuel =>
      have he : eatT isEOFText [eTok] = .ok (true, []) := by
        simp [eatT, isEOFText, heof]
      have hrun : parseDefs (fuel + 1) acc ([] ++ [eTok]) = .ok acc := by
        simp only [List.nil_append, parseDefs, he]
      refine ⟨[], ?_, rfl⟩
      rw [hrun, List.append_nil]
  | cons d ds ih =>
    intro hwf acc dtoks eTok heof fuel hfuel htexts
    have hwfD := hwf d (List.mem_cons_self d ds)
    obtain ⟨hname, hfields⟩ := hwfD
    have htexts2 : dtoks.map Token.text =
        (kindKeyword d.kind :: d.name :: [lbraceChar] ::
          (fieldsTexts d.kind d.fields ++ [[rbraceChar]])) ++ defsTexts ds := by
      rw [htexts]
      show defTexts d ++ defsTexts ds = _
      show ([kindKeyword d.kind, d.name, [lbraceChar]] ++
        fieldsTexts d.kind d.fields ++ [[rbraceChar]]) ++ defsTexts ds = _
      simp
    obtain ⟨dt, rtoks, rfl, hDtexts, hRtexts⟩ := map_text_append htexts2
    obtain ⟨kwTok, r1, rfl, hkw, h1⟩ := map_text_cons hDtexts
    obtain ⟨nameTok, r2, rfl, hnmt, h2⟩ := map_text_cons h1
    obtain ⟨brTok, ftoks2, rfl, hbrt, hftexts⟩ := map_text_cons h2
    cases fuel with
    | zero => omega
    | succ fuel =>
      have hshape : ((kwTok :: nameTok :: brTok :: ftoks2) ++ rtoks) ++ [eTok] =
          kwTok :: nameTok :: brTok :: (ftoks2 ++ (rtoks ++ [eTok])) := by
        simp
      rw [hshape]
      have heat : eatT isEOFText
          (kwTok :: nameTok :: brTok :: (ftoks2 ++ (rtoks ++ [eTok]))) =
          .ok (false, kwTok :: nameTok :: brTok :: (ftoks2 ++ (rtoks ++ [eTok]))) := by
        have : isEOFText kwTok.text = false := by
          rw [hkw]
          simpa [isEOFText, List.isEmpty_iff] using kindKeyword_ne_nil d.kind
        simp [eatT, this]
      have hkind : parseDefKind (kwTok :: nameTok :: brTok :: (ftoks2 ++ (rtoks ++ [eTok]))) =
          .ok (d.kind, nameTok :: brTok :: (ftoks2 ++ (rtoks ++ [eTok]))) :=
        parseDefKind_canon hkw
      have hni : isIdentText nameTok.text = true := by rw [hnmt]; exact hname
      have hexp : expectT isIdentText "identifier".toList
          (nameTok :: brTok :: (ftoks2 ++ (rtoks ++ [eTok]))) =
          .ok (brTok :: (ftoks2 ++ (rtoks ++ [eTok]))) := by
        simp [expectT, hni]
      have hbr : expectT (fun s => decide (s = [lbraceChar]))
          ("\"".toList ++ [lbraceChar] ++ "\"".toList)
          (brTok :: (ftoks2 ++ (rtoks ++ [eTok]))) =
          .ok (ftoks2 ++ (rtoks ++ [eTok])) := by
        simp [expectT, hbrt]
      have hflen : d.fields.length < (ftoks2 ++ (rtoks ++ [eTok])).length + 1 := by
        have h4 := congrArg List.length hftexts
        simp only [List.length_map, List.length_append] at h4 ⊢
        have h5 := @fieldsTexts_length d.kind d.fields
        omega
      obtain ⟨fields', hpf, hfmts⟩ := parseFields_canon hfields [] (rtoks ++ [eTok])
        ((ftoks2 ++ (rtoks ++ [eTok])).length + 1) hflen hftexts
      obtain ⟨ds', hrec, hdfmts⟩ := ih (fun g hg => hwf g (List.mem_cons_of_mem d hg))
        (acc ++ [⟨nameTok.text, nameTok.line, nameTok.column, d.kind, fields'⟩])
        eTok heof fuel (by simp at hfuel ⊢; omega) hRtexts
      refine ⟨⟨nameTok.text, nameTok.line, nameTok.column, d.kind, fields'⟩ :: ds', ?_, ?_⟩
      · simp only [parseDefs, heat, hkind, hexp, hbr, hpf]
        simp only [List.nil_append]
        rw [hrec]
        simp
      · simp only [List.map_cons, hdfmts]
        rw [format_definition_congr hnmt hfmts]

/-- The package step accepts the canonical package tokens. -/
theorem parsePackage_canon_some {pkwTok pTok sTok : Token} {rest : List Token} {pkg : Str}
    (h1 : pkwTok.text = "package".toList) (h2 : pTok.text = pkg)
    (hpi : isIdentText pkg = true) (h3 : sTok.text = [';']) :
    parsePackage (pkwTok :: pTok :: sTok :: rest) = .ok (some pkg, rest) := by
  simp [parsePackage, eatT, expectT, h1, h2, hpi, h3]

/-- The package step passes through tokens that do not start with the
package keyword. -/
theorem parsePackage_canon_none {t : Token} {r : List Token}
    (h : ¬t.text = "package".toList) :
    parsePackage (t :: r) = .ok (none, t :: r) := by
  have hl : ¬t.text = ['p', 'a', 'c', 'k', 'a', 'g', 'e'] := h
  simp [parsePackage, eatT, hl]

/-- Formatting a definition list depends only on the per-definition
renderings. -/
theorem formatDefs_congr : ∀ {ds' ds : List Definition},
    ds'.map format_definition = ds.map format_definition →
    formatDefs ds' = formatDefs ds := by
  intro ds' ds h
  cases ds' with
  | nil =>
    cases ds with
    | nil => rfl
    | cons d t => simp at h
  | cons d' t' =>
    cases ds with
    | nil => simp at h
    | cons d t =>
      simp only [List.map_cons] at h
      have h1 := (List.cons.inj h).1
      have h2 := (List.cons.inj h).2
      show format_definition d' ++ (t'.map (fun e => '\n' :: format_definition e)).flatten =
        format_definition d ++ (t.map (fun e => '\n' :: format_definition e)).flatten
      have hmap : t'.map (fun e => '\n' :: format_definition e) =
          t.map (fun e => '\n' :: format_definition e) := by
        rw [show (fun e => '\n' :: format_definition e) =
          ((fun x => '\n' :: x) ∘ format_definition) from rfl,
          ← List.map_map, ← List.map_map, h2]
      rw [h1, hmap]

/-- Lists with equal renderings are simultaneously empty. -/
theorem map_isEmpty_eq {ds' ds : List Definition}
    (h : ds'.map format_definition = ds.map format_definition) :
    ds'.isEmpty = ds.isEmpty := by
  cases ds' with
  | nil =>
    cases ds with
    | nil => rfl
    | cons d t => simp at h
  | cons d' t' =>
    cases ds with
    | nil => simp at h
    | cons d t => rfl

/-- Parsing any token list carrying the canonical texts of a
well-formed schema succeeds with a schema that formats identically. -/
theorem parse_canon {s : Schema} (hwf : WFSchema s) {toks : List Token}
    (htexts : toks.map Token.text = schemaTexts s ++ [[]]) :
    ∃ s', parse_schema toks = .ok s' ∧ format_schema s' = format_schema s := by
  obtain ⟨hpkg, hdefs⟩ := hwf
  cases hp : s.package with
  | none =>
    have hst : schemaTexts s ++ [[]] = defsTexts s.definitions ++ [[]] := by
      unfold schemaTexts
      rw [hp]
      simp
    rw [hst] at htexts
    obtain ⟨dtoks, etoks, rfl, hdt, het⟩ := map_text_append htexts
    obtain ⟨eTok, r0, rfl, het0, hnil0⟩ := map_text_cons het
    obtain rfl := map_text_nil hnil0
    have hpp : parsePackage (dtoks ++ [eTok]) = .ok (none, dtoks ++ [eTok]) := by
      cases hds : s.definitions with
      | nil =>
        rw [hds] at hdt
        obtain rfl := map_text_nil hdt
        exact parsePackage_canon_none (by rw [het0]; decide)
      | cons d2 ds2 =>
        rw [hds] at hdt
        have hdt2 : dtoks.map Token.text =
            kindKeyword d2.kind :: (([d2.name, [lbraceChar]] ++
              fieldsTexts d2.kind d2.fields ++ [[rbraceChar]]) ++ defsTexts ds2) := by
          rw [hdt]
          show defTexts d2 ++ defsTexts ds2 = _
          show ([kindKeyword d2.kind, d2.name, [lbraceChar]] ++
            fieldsTexts d2.kind d2.fields ++ [[rbraceChar]]) ++ defsTexts ds2 = _
          simp
        obtain ⟨kwTok, r1, rfl, hkw, _⟩ := map_text_cons hdt2
        show parsePackage ((kwTok :: r1) ++ [eTok]) = _
        refine parsePackage_canon_none ?_
        rw [hkw]
        cases d2.kind <;> decide
    have hlen : s.definitions.length < (dtoks ++ [eTok]).length + 1 := by
      have h4 := congrArg List.length hdt
      simp only [List.length_map] at h4
      have h5 := defsTexts_length s.definitions
      simp only [List.length_append]
      omega
    obtain ⟨ds', hrun, hfmts⟩ := parseDefs_canon hdefs [] eTok het0
      ((dtoks ++ [eTok]).length + 1) hlen hdt
    refine ⟨⟨none, ds'⟩, ?_, ?_⟩
    · simp only [parse_schema, hpp]
      rw [hrun]
      simp
    · show format_schema ⟨none, ds'⟩ = format_schema s
      unfold format_schema
      rw [hp]
      show formatDefs ds' = [] ++ formatDefs s.definitions
      rw [List.nil_append]
      exact formatDefs_congr hfmts
  | some pkg =>
    have hpi := hpkg pkg hp
    have hst : schemaTexts s ++ [[]] =
        "package".toList :: pkg :: [';'] :: (defsTexts s.definitions ++ [[]]) := by
      unfold schemaTexts
      rw [hp]
      simp
    rw [hst] at htexts
    obtain ⟨pkwTok, r1, rfl, hkw, h1⟩ := map_text_cons htexts
    obtain ⟨pTok, r2, rfl, hpt, h2⟩ := map_text_cons h1
    obtain ⟨sTok, r3, rfl, hsemit, h3⟩ := map_text_cons h2
    obtain ⟨dtoks, etoks, rfl, hdt, het⟩ := map_text_append h3
    obtain ⟨eTok, r0, rfl, het0, hnil0⟩ := map_text_cons het
    obtain rfl := map_text_nil hnil0
    have hpp := @parsePackage_canon_some pkwTok pTok sTok (dtoks ++ [eTok]) pkg hkw hpt hpi hsemit
    have hlen : s.definitions.length < (dtoks ++ [eTok]).length + 1 := by
      have h4 := congrArg List.length hdt
      simp only [List.length_map] at h4
      have h5 := defsTexts_length s.definitions
      simp only [List.length_append]
      omega
    obtain ⟨ds', hrun, hfmts⟩ := parseDefs_canon hdefs [] eTok het0
      ((dtoks ++ [eTok]).length + 1) hlen hdt
    refine ⟨⟨some pkg, ds'⟩, ?_, ?_⟩
    · simp only [parse_schema, hpp]
      rw [hrun]
      simp
    · show format_schema ⟨some pkg, ds'⟩ = format_schema s
      unfold format_schema
      rw [hp]
      rw [map_isEmpty_eq hfmts, formatDefs_congr hfmts]

/-- C1: for every schema produced by the parser, tokenizing its
formatted text succeeds, parsing those tokens succeeds, and formatting the
resulting schema reproduces the formatted text exactly — the round-trip
idempotence `format (parse (tokenize S)) = S` for canonical `S`. -/
theorem c1_roundtrip (toks0 : List Token) (s : Schema)
    (h : parse_schema toks0 = .ok s) :
    ∃ toks s', tokenize_schema (format_schema s) = .ok toks ∧
      parse_schema toks = .ok s' ∧ format_schema s' = format_schema s := by
  have hwf := parse_schema_wf h
  obtain ⟨toks, htok, htexts⟩ := tokenize_format_texts hwf
  obtain ⟨s', hparse, hfmt⟩ := parse_canon hwf htexts
  exact ⟨toks, s', htok, hparse, hfmt⟩

/-- C1 (witness): the round trip on the schema of
`message M \x7b uint8[3] x = 1 [deprecated]; \x7d`. -/
theorem c1_roundtrip_witness :
    ∃ toks s',
      tokenize_schema (format_schema
        ⟨none, [⟨"M".toList, 1, 9, DefinitionKind.Message,
          [⟨"x".toList, 1, 22, some ("uint8".toList), true, some 3, true, 1⟩]⟩]⟩) =
          .ok toks ∧
      parse_schema toks = .ok s' ∧
      format_schema s' = format_schema
        ⟨none, [⟨"M".toList, 1, 9, DefinitionKind.Message,
          [⟨"x".toList, 1, 22, some ("uint8".toList), true, some 3, true, 1⟩]⟩]⟩ :=
  c1_roundtrip
    [⟨"message".toList, 1, 1⟩, ⟨"M".toList, 1, 9⟩, ⟨[lbraceChar], 1, 11⟩,
     ⟨"uint8".toList, 1, 13⟩, ⟨'[' :: ('3' :: [']']), 1, 18⟩, ⟨"x".toList, 1, 22⟩,
     ⟨['='], 1, 24⟩, ⟨['1'], 1, 26⟩, ⟨'[' :: depChars, 1, 28⟩, ⟨[';'], 1, 40⟩,
     ⟨[rbraceChar], 1, 42⟩, ⟨[], 1, 43⟩]
    ⟨none, [⟨"M".toList, 1, 9, DefinitionKind.Message,
      [⟨"x".toList, 1, 22, some ("uint8".toList), true, some 3, true, 1⟩]⟩]⟩
    (by decide)

end TCS
